import Mathlib

/-!
Verification of the penrose-diy pentagrid tiling engine.

This file gives a shallow embedding, over the real numbers, of the geometry
kernel and the alignment engine of the repository (src/utils.js, src/sketch.js
and the companion source parts), and proves the specified properties about it.
JavaScript numbers are idealised as real numbers; JS objects become Lean
structures; the globally mutated arrays (rhombPoints, alignmentQueue) become
explicit state that is passed and returned.
-/

namespace Penrose

noncomputable section

/-! ## Constants (from the sketch configuration) -/

/-- Edge length of every rhombus (SCALE in the source). -/
def SCALE : ℝ := 55

/-- Half extent of the drawing area (GRID_SIZE in the source). -/
def GRID_SIZE : ℝ := 1200

/-- Spacing between parallel grid lines (SPACING in the source). -/
def SPACING : ℝ := 400

/-- Number of lines on each side of the origin per family (NUM_LINES). -/
def NUM_LINES : ℕ := 1

/-- Small tolerance used by the graph builder (EPSILON in the source). -/
def EPSILON : ℝ := 0.001

/-- A right angle in degrees (RIGHT_ANGLE in the source). -/
def RIGHT_ANGLE : ℝ := 90

/-- Angular tolerance of the perpendicularity tests (ANGLE_TOLERANCE). -/
def ANGLE_TOLERANCE : ℝ := 0.001

/-- Gamma offsets: four fixed values and a fifth making the sum 1
(initializeGammas in the source). -/
def GAMMAS : List ℝ := [0.17, 0.21, 0.28, 0.3, 1 - (0.17 + 0.21 + 0.28 + 0.3)]

/-! ## Data model -/

/-- A pentagrid line as stored by findGridFamily: implicit-form
coefficients, orientation angle, family index, offset index, and the two
clipped segment endpoints. -/
structure GridLine where
  a : ℝ
  b : ℝ
  c : ℝ
  angle : ℝ
  family : ℕ
  n : ℤ
  x1 : ℝ
  y1 : ℝ
  x2 : ℝ
  y2 : ℝ

/-- An intersection point together with the two contributing lines
(line1 from the lower-indexed family). -/
structure Intersection where
  x : ℝ
  y : ℝ
  line1 : GridLine
  line2 : GridLine

/-- Traversal direction of a neighbour along a shared line. -/
inductive Direction where
  | forward
  | backward
deriving DecidableEq

/-- The opposite traversal direction. -/
def Direction.opposite : Direction → Direction
  | .forward => .backward
  | .backward => .forward

/-- One adjacency record of the rhombus graph: neighbour index, the shared
grid line, and which side of the line the neighbour lies on. -/
structure AdjData where
  neighborIndex : ℕ
  sharedLine : GridLine
  direction : Direction

/-- A rhombus tile as stored in rhombPoints: four (mutable) vertices, the
originating intersection, the aligned and locked flags, and the snapshot of
the original vertex positions kept for reset. -/
structure Rhomb where
  points : List (ℝ × ℝ)
  intersection : Intersection
  aligned : Bool
  locked : Bool
  originalPoints : List (ℝ × ℝ)

/-- Placeholder line used only to build the inert default rhombus below. -/
def junkLine : GridLine := ⟨0, 0, 0, 0, 0, 0, 0, 0, 0, 0⟩

/-- Default rhombus returned by out-of-range list accesses.  Its aligned
flag is true so that a dangling neighbour index is inert: the JS source
never indexes out of range, and marking the default as aligned makes every
out-of-range neighbour be filtered out rather than processed. -/
def defaultRhomb : Rhomb :=
  ⟨[], ⟨0, 0, junkLine, junkLine⟩, true, false, []⟩

/-! ## Geometry kernel (src/utils.js) -/

/-- Segment-segment intersection test (intersect in src/utils.js):
rejects zero-length segments, parallel segments, and parameter values
outside [0,1]; otherwise returns the intersection point with the two
lines attached. -/
def intersect (line1 line2 : GridLine) : Option Intersection :=
  let x1 := line1.x1
  let y1 := line1.y1
  let x2 := line1.x2
  let y2 := line1.y2
  let x3 := line2.x1
  let y3 := line2.y1
  let x4 := line2.x2
  let y4 := line2.y2
  if (x1 = x2 ∧ y1 = y2) ∨ (x3 = x4 ∧ y3 = y4) then none
  else
    let denominator := (y4 - y3) * (x2 - x1) - (x4 - x3) * (y2 - y1)
    if denominator = 0 then none
    else
      let ua := ((x4 - x3) * (y1 - y3) - (y4 - y3) * (x1 - x3)) / denominator
      let ub := ((x2 - x1) * (y1 - y3) - (y2 - y1) * (x1 - x3)) / denominator
      if ua < 0 ∨ ua > 1 ∨ ub < 0 ∨ ub > 1 then none
      else some ⟨x1 + ua * (x2 - x1), y1 + ua * (y2 - y1), line1, line2⟩

/-- Acute angle, in degrees, between two segments (getAngleBetweenLines in
the source, the guarded variant: zero magnitudes give 0 and the cosine is
clamped into [-1,1] before arccos). -/
def getAngleBetweenLines (x1 y1 x2 y2 x3 y3 x4 y4 : ℝ) : ℝ :=
  let v1x := x2 - x1
  let v1y := y2 - y1
  let v2x := x4 - x3
  let v2y := y4 - y3
  let dotProduct := v1x * v2x + v1y * v2y
  let mag1 := Real.sqrt (v1x * v1x + v1y * v1y)
  let mag2 := Real.sqrt (v2x * v2x + v2y * v2y)
  if mag1 = 0 ∨ mag2 = 0 then 0
  else
    let cosAngle := max (-1) (min 1 (dotProduct / (mag1 * mag2)))
    let angleDeg := Real.arccos cosAngle * 180 / Real.pi
    if angleDeg > RIGHT_ANGLE then 180 - angleDeg else angleDeg

/-- Angle offset selected by the family difference (the angleMap object in
findRhomb; any other difference falls back to 0). -/
def angleMap (familyDiff : ℤ) : ℝ :=
  if familyDiff = 1 then 3 * Real.pi / 5
  else if familyDiff = 2 then 1 * Real.pi / 5
  else if familyDiff = 3 then 4 * Real.pi / 5
  else if familyDiff = 4 then 2 * Real.pi / 5
  else 0

/-- Rhombus construction from an intersection (findRhomb in the source):
two direction vectors at angle1 (line2's orientation) and angle2
(angle1 plus the family-difference offset), each of length SCALE, two
half-scale shift vectors, and the four vertices start, dir1, dir3, dir2 in
traversal order.  The fresh tile is unaligned, unlocked, and its original
snapshot equals the computed vertices. -/
def findRhomb (intersection : Intersection) : Rhomb :=
  let angle1 := intersection.line2.angle
  let familyDiff : ℤ := (intersection.line2.family : ℤ) - (intersection.line1.family : ℤ)
  let angle2 := angle1 + angleMap familyDiff
  let halfScale := SCALE / 2
  let shift1x := Real.cos angle1 * halfScale
  let shift1y := Real.sin angle1 * halfScale
  let shift2x := Real.cos angle2 * halfScale
  let shift2y := Real.sin angle2 * halfScale
  let startx := intersection.x - (shift1x + shift2x)
  let starty := intersection.y - (shift1y + shift2y)
  let dir1x := Real.cos angle1 * SCALE + intersection.x - shift1x - shift2x
  let dir1y := Real.sin angle1 * SCALE + intersection.y - shift1y - shift2y
  let dir2x := Real.cos angle2 * SCALE + intersection.x - shift1x - shift2x
  let dir2y := Real.sin angle2 * SCALE + intersection.y - shift1y - shift2y
  let dir3x := dir2x + dir1x - intersection.x + shift1x + shift2x
  let dir3y := dir2y + dir1y - intersection.y + shift1y + shift2y
  let points := [(startx, starty), (dir1x, dir1y), (dir3x, dir3y), (dir2x, dir2y)]
  ⟨points, intersection, false, false, points⟩

/-- The perpendicularity consistency check logged by findRhomb: edge
(v0,v1) against line2's segment and edge (v1,v2) against line1's segment,
both within ANGLE_TOLERANCE of a right angle. -/
def rhombPerpendicularityCheck (intersection : Intersection) : Prop :=
  let points := (findRhomb intersection).points
  let p0 := points.getD 0 (0, 0)
  let p1 := points.getD 1 (0, 0)
  let p2 := points.getD 2 (0, 0)
  |getAngleBetweenLines p0.1 p0.2 p1.1 p1.2
      intersection.line2.x1 intersection.line2.y1
      intersection.line2.x2 intersection.line2.y2 - RIGHT_ANGLE| < ANGLE_TOLERANCE ∧
  |getAngleBetweenLines p1.1 p1.2 p2.1 p2.2
      intersection.line1.x1 intersection.line1.y1
      intersection.line1.x2 intersection.line1.y2 - RIGHT_ANGLE| < ANGLE_TOLERANCE

/-- One line of a pentagrid family (the loop body of findGridFamily): the
orientation angle is 2πk/5, the perpendicular offset is
nSPACING + gamma_kSPACING, and the two endpoints are obtained by walking
GRID_SIZE along the tangent from the point closest to the origin. -/
def gridLineFor (k : ℕ) (n : ℤ) : GridLine :=
  let angle := (k : ℝ) * (2 * Real.pi) / 5
  let cosAngle := Real.cos angle
  let sinAngle := Real.sin angle
  let d := (n : ℝ) * SPACING + GAMMAS.getD k 0 * SPACING
  ⟨sinAngle, -cosAngle, d, angle, k, n,
    -GRID_SIZE * sinAngle + cosAngle * d,
    GRID_SIZE * cosAngle + sinAngle * d,
    GRID_SIZE * sinAngle + cosAngle * d,
    -GRID_SIZE * cosAngle + sinAngle * d⟩

/-- One family of parallel grid lines (findGridFamily in the source):
indices n from -NUM_LINES to NUM_LINES; an out-of-range family index
yields the empty list. -/
def findGridFamily (k : ℕ) : List GridLine :=
  if k ≥ 5 then []
  else (List.range (2 * NUM_LINES + 1)).map fun m => gridLineFor k ((m : ℤ) - (NUM_LINES : ℤ))

/-- Euclidean distance between two vertices, used to state the rhombus
side-length property. -/
def ptDist (p q : ℝ × ℝ) : ℝ :=
  Real.sqrt ((q.1 - p.1) ^ 2 + (q.2 - p.2) ^ 2)

/-! ## Adjacency graph builder (buildRhombGraph and helpers) -/

/-- A candidate intersection sharing a grid line with the current rhombus
(the records pushed on intersectionsOnLine1 and intersectionsOnLine2). -/
structure CandidateRec where
  index : ℕ
  x : ℝ
  y : ℝ

/-- A bucket entry of findClosestNeighborsOnLine: candidate index with its
Euclidean distance from the current intersection. -/
structure BucketEntry where
  index : ℕ
  distance : ℝ

/-- A neighbour chosen by findClosestNeighborsOnLine: its index and on
which side of the line it lies. -/
structure NeighborRec where
  index : ℕ
  direction : Direction

/-- Test whether a rhombus shares the given grid line: one of its two
defining lines has the same family and offset index (the membership test
inside buildRhombGraph). -/
def sharesLine (rhomb : Rhomb) (line : GridLine) : Prop :=
  (rhomb.intersection.line1.family = line.family ∧ rhomb.intersection.line1.n = line.n) ∨
  (rhomb.intersection.line2.family = line.family ∧ rhomb.intersection.line2.n = line.n)

instance (rhomb : Rhomb) (line : GridLine) : Decidable (sharesLine rhomb line) := by
  unfold sharesLine; infer_instance

/-- All other rhombuses sharing the given line, in index order (the
candidate-collection loop of buildRhombGraph). -/
def candidatesOnLine (tiles : List Rhomb) (i : ℕ) (line : GridLine) : List CandidateRec :=
  tiles.enum.filterMap fun pair =>
    if pair.1 = i then none
    else if sharesLine pair.2 line then
      some ⟨pair.1, pair.2.intersection.x, pair.2.intersection.y⟩
    else none

/-- Comparator used by the source's sort((a, b) => a.distance - b.distance):
ascending distance. -/
def byDistance (a b : BucketEntry) : Bool :=
  decide (a.distance ≤ b.distance)

/-- The x component of the normalised direction of a line segment, as
computed inside findClosestNeighborsOnLine. -/
def lineDirX (line : GridLine) : ℝ :=
  (line.x2 - line.x1) /
    Real.sqrt ((line.x2 - line.x1) * (line.x2 - line.x1) +
      (line.y2 - line.y1) * (line.y2 - line.y1))

/-- The y component of the normalised direction of a line segment. -/
def lineDirY (line : GridLine) : ℝ :=
  (line.y2 - line.y1) /
    Real.sqrt ((line.x2 - line.x1) * (line.x2 - line.x1) +
      (line.y2 - line.y1) * (line.y2 - line.y1))

/-- Euclidean distance from the current point to a candidate, as computed
inside findClosestNeighborsOnLine. -/
def candDist (x y : ℝ) (c : CandidateRec) : ℝ :=
  Real.sqrt ((c.x - x) * (c.x - x) + (c.y - y) * (c.y - y))

/-- Projection of a candidate offset onto the normalised line direction,
as computed inside findClosestNeighborsOnLine. -/
def candProj (x y : ℝ) (line : GridLine) (c : CandidateRec) : ℝ :=
  (c.x - x) * lineDirX line + (c.y - y) * lineDirY line

/-- The forward bucket of findClosestNeighborsOnLine: candidates farther
than EPSILON whose projection exceeds EPSILON. -/
def forwardBucket (x y : ℝ) (line : GridLine) (candidates : List CandidateRec) :
    List BucketEntry :=
  candidates.filterMap fun c =>
    if candDist x y c < EPSILON then none
    else if candProj x y line c > EPSILON then some (⟨c.index, candDist x y c⟩ : BucketEntry)
    else none

/-- The backward bucket of findClosestNeighborsOnLine: candidates farther
than EPSILON whose projection is below -EPSILON. -/
def backwardBucket (x y : ℝ) (line : GridLine) (candidates : List CandidateRec) :
    List BucketEntry :=
  candidates.filterMap fun c =>
    if candDist x y c < EPSILON then none
    else if candProj x y line c > EPSILON then none
    else if candProj x y line c < -EPSILON then some (⟨c.index, candDist x y c⟩ : BucketEntry)
    else none

/-- Closest neighbour in each direction along a line
(findClosestNeighborsOnLine in the source): candidates are classified by the
sign of their projection onto the normalised line direction, candidates
within EPSILON of the current point are skipped, and in each bucket the
minimum-distance entry is taken (the head after an ascending stable sort). -/
def findClosestNeighborsOnLine (x y : ℝ) (line : GridLine) (candidates : List CandidateRec) :
    List NeighborRec :=
  if candidates.length = 0 then []
  else
    (match (forwardBucket x y line candidates).mergeSort byDistance with
      | f :: _ => [(⟨f.index, Direction.forward⟩ : NeighborRec)]
      | [] => []) ++
    (match (backwardBucket x y line candidates).mergeSort byDistance with
      | f :: _ => [(⟨f.index, Direction.backward⟩ : NeighborRec)]
      | [] => [])

/-- The bucket of findClosestNeighborsOnLine corresponding to a direction. -/
def bucketFor (d : Direction) (x y : ℝ) (line : GridLine) (candidates : List CandidateRec) :
    List BucketEntry :=
  match d with
  | .forward => forwardBucket x y line candidates
  | .backward => backwardBucket x y line candidates

/-- Sign of a direction: the side of the line it selects. -/
def dirSign (d : Direction) : ℝ :=
  match d with
  | .forward => 1
  | .backward => -1

/-- Adjacency list of one rhombus (the loop body of buildRhombGraph):
closest neighbours along its two defining lines, each recorded with the
shared line and its direction. -/
def rhombAdjacency (tiles : List Rhomb) (i : ℕ) : List AdjData :=
  let rhomb := tiles.getD i defaultRhomb
  let line1 := rhomb.intersection.line1
  let line2 := rhomb.intersection.line2
  let neighborsOnLine1 := findClosestNeighborsOnLine
    rhomb.intersection.x rhomb.intersection.y line1 (candidatesOnLine tiles i line1)
  let neighborsOnLine2 := findClosestNeighborsOnLine
    rhomb.intersection.x rhomb.intersection.y line2 (candidatesOnLine tiles i line2)
  (neighborsOnLine1.map fun nd => (⟨nd.index, line1, nd.direction⟩ : AdjData)) ++
  (neighborsOnLine2.map fun nd => (⟨nd.index, line2, nd.direction⟩ : AdjData))

/-- The rhombus adjacency graph (buildRhombGraph in the source), as a list
indexed like rhombPoints. -/
def buildRhombGraph (tiles : List Rhomb) : List (List AdjData) :=
  (List.range tiles.length).map fun i => rhombAdjacency tiles i

/-! ## Alignment engine (src/sketch.js and the batch utils) -/

/-- An edge of a rhombus perpendicular to a grid line, with the projection
of its midpoint onto the line direction (the perpEdges entries of
findEdgeOnLine). -/
structure EdgeRec where
  v1 : ℝ × ℝ
  v2 : ℝ × ℝ
  projection : ℝ

/-- Find the edge of a rhombus perpendicular to a grid line on the side
given by direction (findEdgeOnLine in the source).  When the number of
perpendicular edges is not 2 the source warns and falls back to the first
one found (or null when there is none). -/
def findEdgeOnLine (rhomb : Rhomb) (line : GridLine) (direction : Direction) : Option EdgeRec :=
  let points := rhomb.points
  let lineDx := line.x2 - line.x1
  let lineDy := line.y2 - line.y1
  let lineLength := Real.sqrt (lineDx * lineDx + lineDy * lineDy)
  let lineDirx := lineDx / lineLength
  let lineDiry := lineDy / lineLength
  let perpEdges := (List.range 4).filterMap fun i =>
    let v1 := points.getD i (0, 0)
    let v2 := points.getD ((i + 1) % 4) (0, 0)
    let angle := getAngleBetweenLines v1.1 v1.2 v2.1 v2.2 line.x1 line.y1 line.x2 line.y2
    if |angle - RIGHT_ANGLE| < ANGLE_TOLERANCE then
      let edgeCenterX := (v1.1 + v2.1) / 2
      let edgeCenterY := (v1.2 + v2.2) / 2
      let dx := edgeCenterX - rhomb.intersection.x
      let dy := edgeCenterY - rhomb.intersection.y
      some (⟨v1, v2, dx * lineDirx + dy * lineDiry⟩ : EdgeRec)
    else none
  match perpEdges with
  | [e1, e2] =>
    match direction with
    | .forward => some (if e1.projection > e2.projection then e1 else e2)
    | .backward => some (if e1.projection < e2.projection then e1 else e2)
  | e :: _ => some e
  | [] => none

/-- Translation that makes the adjacent rhombus's reference edge coincide
with the starting rhombus's (calculateAlignmentOffset in the source): the
average of the two per-vertex differences; if either edge is missing the
source warns and returns the zero offset. -/
def calculateAlignmentOffset (startRhomb adjacentRhomb : Rhomb) (sharedLine : GridLine)
    (direction : Direction) : ℝ × ℝ :=
  match findEdgeOnLine startRhomb sharedLine direction,
        findEdgeOnLine adjacentRhomb sharedLine direction.opposite with
  | some startEdge, some adjEdge =>
      (((startEdge.v1.1 - adjEdge.v1.1) + (startEdge.v2.1 - adjEdge.v2.1)) / 2,
       ((startEdge.v1.2 - adjEdge.v1.2) + (startEdge.v2.2 - adjEdge.v2.2)) / 2)
  | _, _ => (0, 0)

/-- Translate every vertex of a rhombus by the offset (realignRhombus). -/
def realignRhombus (rhomb : Rhomb) (offset : ℝ × ℝ) : Rhomb :=
  { rhomb with points := rhomb.points.map fun p => (p.1 + offset.1, p.2 + offset.2) }

/-- Adjacency records of a rhombus whose targets are not yet aligned
(getUnalignedAdjacentTiles in the source). -/
def getUnalignedAdjacentTiles (g : List (List AdjData)) (tiles : List Rhomb)
    (rhombIndex : ℕ) : List AdjData :=
  (g.getD rhombIndex []).filter fun data =>
    !(tiles.getD data.neighborIndex defaultRhomb).aligned

/-- Process the snapshot of unaligned neighbours of one popped tile (the
inner for-loop of alignRhombuses): realign each neighbour against the
starting tile, mark it aligned, and collect the pushed indices in order. -/
def alignNeighbors (startingTileIndex : ℕ) :
    List AdjData → List Rhomb → List Rhomb × List ℕ
  | [], tiles => (tiles, [])
  | data :: rest, tiles =>
    let startingTile := tiles.getD startingTileIndex defaultRhomb
    let adjacentTile := tiles.getD data.neighborIndex defaultRhomb
    let offset := calculateAlignmentOffset startingTile adjacentTile data.sharedLine data.direction
    let tiles1 := tiles.set data.neighborIndex
      { realignRhombus adjacentTile offset with aligned := true }
    let res := alignNeighbors startingTileIndex rest tiles1
    (res.1, data.neighborIndex :: res.2)

/-- Number of tiles still unaligned; the termination measure of the
alignment loops. -/
def unalignedCount (tiles : List Rhomb) : ℕ :=
  tiles.countP fun t => !t.aligned

/-- Reading back the element just written (getD over set, same index). -/
theorem getD_set_self {α : Type _} (l : List α) (i : ℕ) (a d : α) (h : i < l.length) :
    (l.set i a).getD i d = a := by
  rw [List.getD_eq_getElem?_getD, List.getElem?_set_self h]
  rfl

/-- Writing one index leaves every other index unchanged (getD over set). -/
theorem getD_set_ne {α : Type _} (l : List α) {i j : ℕ} (h : i ≠ j) (a d : α) :
    (l.set i a).getD j d = l.getD j d := by
  rw [List.getD_eq_getElem?_getD, List.getElem?_set_ne h, ← List.getD_eq_getElem?_getD]

/-- An index whose getD read is unaligned is in range, because the default
rhombus is aligned. -/
theorem lt_length_of_unaligned {tiles : List Rhomb} {nb : ℕ}
    (h : (tiles.getD nb defaultRhomb).aligned = false) : nb < tiles.length := by
  by_contra hge
  rw [List.getD_eq_default _ _ (Nat.le_of_not_lt hge)] at h
  simp [defaultRhomb] at h

/-- Replacing a tile by an aligned one never increases the number of
unaligned tiles (termination helper for the loops below). -/
theorem unalignedCount_set_le (tiles : List Rhomb) (nb : ℕ) (t : Rhomb)
    (ht : t.aligned = true) : unalignedCount (tiles.set nb t) ≤ unalignedCount tiles := by
  by_cases h : nb < tiles.length
  · unfold unalignedCount
    rw [List.countP_set _ _ _ _ h]
    simp [ht]
  · rw [List.set_eq_of_length_le (Nat.le_of_not_lt h)]

/-- Replacing a currently unaligned tile by an aligned one strictly
decreases the number of unaligned tiles. -/
theorem unalignedCount_set_lt (tiles : List Rhomb) (nb : ℕ) (t : Rhomb)
    (ht : t.aligned = true) (hnb : (tiles.getD nb defaultRhomb).aligned = false) :
    unalignedCount (tiles.set nb t) < unalignedCount tiles := by
  have hlt : nb < tiles.length := by
    by_contra h
    rw [List.getD_eq_default _ _ (Nat.le_of_not_lt h)] at hnb
    simp [defaultRhomb] at hnb
  have hget : tiles[nb].aligned = false := by
    rwa [List.getD_eq_getElem tiles defaultRhomb hlt] at hnb
  unfold unalignedCount
  rw [List.countP_set _ _ _ _ hlt]
  simp [ht, hget]
  exact ⟨tiles[nb], List.getElem_mem hlt, hget⟩

/-- Processing a batch of neighbours never increases the number of
unaligned tiles. -/
theorem alignNeighbors_unalignedCount_le (i : ℕ) (adj : List AdjData) :
    ∀ tiles : List Rhomb,
      unalignedCount (alignNeighbors i adj tiles).1 ≤ unalignedCount tiles := by
  induction adj with
  | nil => intro tiles; simp [alignNeighbors]
  | cons d rest ih =>
    intro tiles
    simp only [alignNeighbors]
    exact le_trans (ih _) (unalignedCount_set_le _ _ _ rfl)

/-- Processing a nonempty batch whose first target is unaligned strictly
decreases the number of unaligned tiles. -/
theorem alignNeighbors_unalignedCount_lt (i : ℕ) (d : AdjData) (rest : List AdjData)
    (tiles : List Rhomb) (hd : (tiles.getD d.neighborIndex defaultRhomb).aligned = false) :
    unalignedCount (alignNeighbors i (d :: rest) tiles).1 < unalignedCount tiles := by
  simp only [alignNeighbors]
  exact lt_of_le_of_lt (alignNeighbors_unalignedCount_le _ _ _)
    (unalignedCount_set_lt _ _ _ rfl hd)

/-- Every record returned by getUnalignedAdjacentTiles points at a tile
that is currently unaligned. -/
theorem mem_getUnalignedAdjacentTiles {g : List (List AdjData)} {tiles : List Rhomb}
    {i : ℕ} {d : AdjData} (h : d ∈ getUnalignedAdjacentTiles g tiles i) :
    (tiles.getD d.neighborIndex defaultRhomb).aligned = false := by
  have := List.of_mem_filter h
  simpa using this

/-- The breadth-first while-loop of alignRhombuses: pop the front tile,
realign and mark all its currently unaligned neighbours, enqueue them, and
continue until the queue is empty. -/
def alignLoop (g : List (List AdjData)) (tiles : List Rhomb) (queue : List ℕ) : List Rhomb :=
  match queue with
  | [] => tiles
  | startingTileIndex :: rest =>
    alignLoop g
      (alignNeighbors startingTileIndex (getUnalignedAdjacentTiles g tiles startingTileIndex) tiles).1
      (rest ++ (alignNeighbors startingTileIndex (getUnalignedAdjacentTiles g tiles startingTileIndex) tiles).2)
termination_by (unalignedCount tiles, queue.length)
decreasing_by
  rcases hadj : getUnalignedAdjacentTiles g tiles startingTileIndex with _ | ⟨d, ds⟩
  · apply Prod.Lex.right
    simp [hadj, alignNeighbors]
  · apply Prod.Lex.left
    exact alignNeighbors_unalignedCount_lt _ _ _ _
      (mem_getUnalignedAdjacentTiles (hadj ▸ List.mem_cons_self d ds))

/-- Batch alignment (alignRhombuses in the source): nothing to do on an
empty tile set; otherwise seed the queue with tile 0, mark it aligned, and
run the breadth-first loop. -/
def alignRhombuses (tiles : List Rhomb) (g : List (List AdjData)) : List Rhomb :=
  if tiles.length = 0 then tiles
  else alignLoop g (tiles.set 0 { tiles.getD 0 defaultRhomb with aligned := true }) [0]

/-- The alignment engine state shared between frames: the tile array and
the FIFO alignmentQueue. -/
structure AlignState where
  tiles : List Rhomb
  queue : List ℕ

/-- One frame of progressive alignment (stepAlignment in the source): pop
the front tile; if it has unaligned neighbours, process only the first one
(skipping the translation when it is locked, but still marking it aligned),
push it at the back, and re-enqueue the popped tile at the front once per
remaining neighbour. -/
def stepAlignment (g : List (List AdjData)) (s : AlignState) : AlignState :=
  match s.queue with
  | [] => s
  | startingTileIndex :: rest =>
    match getUnalignedAdjacentTiles g s.tiles startingTileIndex with
    | [] => ⟨s.tiles, rest⟩
    | data :: moreData =>
      let startingTile := s.tiles.getD startingTileIndex defaultRhomb
      let adjacentTile := s.tiles.getD data.neighborIndex defaultRhomb
      let tiles1 :=
        if adjacentTile.locked then s.tiles
        else s.tiles.set data.neighborIndex
          (realignRhombus adjacentTile
            (calculateAlignmentOffset startingTile adjacentTile data.sharedLine data.direction))
      let tiles2 := tiles1.set data.neighborIndex
        { tiles1.getD data.neighborIndex defaultRhomb with aligned := true }
      ⟨tiles2, List.replicate moreData.length startingTileIndex ++ rest ++ [data.neighborIndex]⟩

/-- Replacing an unaligned tile by an unaligned one keeps the number of
unaligned tiles unchanged. -/
theorem unalignedCount_set_eq (tiles : List Rhomb) (nb : ℕ) (t : Rhomb)
    (hlt : nb < tiles.length) (h : t.aligned = tiles[nb].aligned) :
    unalignedCount (tiles.set nb t) = unalignedCount tiles := by
  unfold unalignedCount
  rw [List.countP_set _ _ _ _ hlt, h]
  cases hv : tiles[nb].aligned with
  | false =>
    have hpos : 0 < List.countP (fun t => !t.aligned) tiles := by
      rw [List.countP_pos_iff]
      exact ⟨tiles[nb], List.getElem_mem hlt, by simp [hv]⟩
    simp [hv]
    omega
  | true => simp [hv]

/-- One stepAlignment call on a nonempty queue decreases the lexicographic
measure (number of unaligned tiles, queue length). -/
theorem stepAlignment_measure (g : List (List AdjData)) (s : AlignState)
    (h : s.queue ≠ []) :
    Prod.Lex (· < ·) (· < ·)
      (unalignedCount (stepAlignment g s).tiles, (stepAlignment g s).queue.length)
      (unalignedCount s.tiles, s.queue.length) := by
  rcases s with ⟨tiles, queue⟩
  rcases queue with _ | ⟨i, rest⟩
  · simp at h
  rcases hadj : getUnalignedAdjacentTiles g tiles i with _ | ⟨d, ds⟩
  · simp only [stepAlignment, hadj]
    apply Prod.Lex.right
    simp
  · have hd : (tiles.getD d.neighborIndex defaultRhomb).aligned = false :=
      mem_getUnalignedAdjacentTiles (hadj ▸ List.mem_cons_self d ds)
    have hlt : d.neighborIndex < tiles.length := lt_length_of_unaligned hd
    simp only [stepAlignment, hadj]
    apply Prod.Lex.left
    by_cases hl : (tiles.getD d.neighborIndex defaultRhomb).locked
    · simp only [hl, if_true]
      exact unalignedCount_set_lt _ _ _ rfl hd
    · simp only [hl, if_false]
      set r := realignRhombus (tiles.getD d.neighborIndex defaultRhomb)
        (calculateAlignmentOffset (tiles.getD i defaultRhomb)
          (tiles.getD d.neighborIndex defaultRhomb) d.sharedLine d.direction) with hr
      have hr_aligned : r.aligned = false := hd
      have h1 : unalignedCount (tiles.set d.neighborIndex r) = unalignedCount tiles := by
        apply unalignedCount_set_eq _ _ _ hlt
        rw [hr_aligned, ← List.getD_eq_getElem tiles defaultRhomb hlt, hd]
      have h2 : ((tiles.set d.neighborIndex r).getD d.neighborIndex defaultRhomb).aligned
          = false := by
        rw [getD_set_self _ _ _ _ hlt, hr_aligned]
      calc unalignedCount ((tiles.set d.neighborIndex r).set d.neighborIndex
              { (tiles.set d.neighborIndex r).getD d.neighborIndex defaultRhomb with
                aligned := true })
          < unalignedCount (tiles.set d.neighborIndex r) :=
            unalignedCount_set_lt _ _ _ rfl h2
        _ = unalignedCount tiles := h1

/-- Single-step alignment iterated until the queue is empty (the source
drives stepAlignment once per animation frame while isAligning holds; this
function runs those frames to completion). -/
def runStepAlignment (g : List (List AdjData)) (s : AlignState) : AlignState :=
  if h : s.queue = [] then s
  else runStepAlignment g (stepAlignment g s)
termination_by (unalignedCount s.tiles, s.queue.length)
decreasing_by
  exact stepAlignment_measure g s h

/-- Progressive-alignment start (startProgressiveAlignment in the source):
if any tile is locked the queue is seeded with all locked tiles, otherwise
with tile 0, which is marked aligned. -/
def startProgressiveAlignment (tiles : List Rhomb) : AlignState :=
  if 0 < tiles.countP (fun r => r.locked) then
    ⟨tiles, tiles.enum.filterMap fun p => if p.2.locked then some p.1 else none⟩
  else
    ⟨tiles.set 0 { tiles.getD 0 defaultRhomb with aligned := true }, [0]⟩

/-- Reset (resetRhombuses in the source): restore every vertex from the
original snapshot and clear the aligned flag.  The locked flag is not
touched by the source. -/
def resetRhombuses (tiles : List Rhomb) : List Rhomb :=
  tiles.map fun rhomb =>
    { rhomb with
      points := (List.range rhomb.points.length).map fun i => rhomb.originalPoints.getD i (0, 0)
      aligned := false }

/-- The reset branch of toggleAlignment: reset the tiles and clear the
alignment queue. -/
def toggleAlignmentReset (s : AlignState) : AlignState :=
  ⟨resetRhombuses s.tiles, []⟩

/-- Vertex update of the drag handler (mouseDragged in src/sketch.js): every
vertex of the selected rhombus is translated by the mouse delta, and the
tile is marked locked and aligned so it acts as an anchor. -/
def mouseDraggedMove (rhomb : Rhomb) (deltaX deltaY : ℝ) : Rhomb :=
  { rhomb with
    points := rhomb.points.map fun p => (p.1 + deltaX, p.2 + deltaY)
    locked := true
    aligned := true }

/-- Vertex update of one animation frame of the draw loop (src/sketch.js):
every vertex is placed at its animation start position plus the current
fraction of the alignment offset. -/
def drawAnimatePoints (startPositions : List (ℝ × ℝ)) (offset : ℝ × ℝ)
    (progress : ℝ) : List (ℝ × ℝ) :=
  startPositions.map fun p => (p.1 + offset.1 * progress, p.2 + offset.2 * progress)

/-- Reachability through the adjacency graph from a seed set: the seeds
are reachable, and so is the target of any adjacency record of a reachable
tile.  This is the specification-side notion the alignment coverage claim
compares against. -/
inductive Reach (g : List (List AdjData)) (seeds : List ℕ) : ℕ → Prop
  | seed {i : ℕ} : i ∈ seeds → Reach g seeds i
  | step {i : ℕ} {d : AdjData} : Reach g seeds i → d ∈ g.getD i [] → Reach g seeds d.neighborIndex

/-- The parametric denominator of the segment intersection test, exactly
as computed inside intersect. -/
def segmentDenominator (line1 line2 : GridLine) : ℝ :=
  (line2.y2 - line2.y1) * (line1.x2 - line1.x1) - (line2.x2 - line2.x1) * (line1.y2 - line1.y1)

/-- The parameter ua of the segment intersection test, exactly as computed
inside intersect. -/
def segmentUa (line1 line2 : GridLine) : ℝ :=
  ((line2.x2 - line2.x1) * (line1.y1 - line2.y1) - (line2.y2 - line2.y1) * (line1.x1 - line2.x1)) /
    segmentDenominator line1 line2

/-- The parameter ub of the segment intersection test, exactly as computed
inside intersect. -/
def segmentUb (line1 line2 : GridLine) : ℝ :=
  ((line1.x2 - line1.x1) * (line1.y1 - line2.y1) - (line1.y2 - line1.y1) * (line1.x1 - line2.x1)) /
    segmentDenominator line1 line2

end

/-! ## Concrete two-tile configuration on a horizontal grid line -/

/-- A horizontal unit grid segment of family 0, offset 0. -/
def exS : GridLine := ⟨0, 0, 0, 0, 0, 0, 0, 0, 1, 0⟩

def exT : GridLine := ⟨0, 0, 0, 0, 1, 0, 0, 0, 0, 1⟩

def exU : GridLine := ⟨0, 0, 0, 0, 1, 1, 1, 0, 1, 1⟩

def exTile0 : Rhomb := ⟨[], ⟨0, 0, exS, exT⟩, false, false, []⟩

def exTile1 : Rhomb := ⟨[], ⟨1, 0, exS, exU⟩, false, false, []⟩

def exTiles : List Rhomb := [exTile0, exTile1]

/-- The evaluated adjacency graph of the two-tile configuration, as a plain
list literal (equal to buildRhombGraph exTiles by the evaluation below). -/
def exGraphList : List (List AdjData) :=
  [[⟨1, exS, Direction.forward⟩], [⟨0, exS, Direction.backward⟩]]

/-- Horizontal unit grid segment used by the concrete alignment runs. -/
def cexLine : GridLine := ⟨0, 0, 0, 0, 0, 0, 0, 0, 1, 0⟩

/-- Vertices of a side-2 square with corners (0,0) and (2,2). -/
def cexPoints0 : List (ℝ × ℝ) := [(0, 0), (0, 2), (2, 2), (2, 0)]

/-- Vertices of a side-2 square with corners (6,0) and (8,2). -/
def cexPoints1 : List (ℝ × ℝ) := [(6, 0), (6, 2), (8, 2), (8, 0)]

/-- Unlocked square tile centred on (1, 1). -/
def cexTile0 : Rhomb := ⟨cexPoints0, ⟨1, 1, cexLine, cexLine⟩, false, false, cexPoints0⟩

/-- Locked square tile centred on (7, 1). -/
def cexTile1 : Rhomb := ⟨cexPoints1, ⟨7, 1, cexLine, cexLine⟩, false, true, cexPoints1⟩

/-- Two squares on the shared horizontal line, the second one locked. -/
def cexTiles : List Rhomb := [cexTile0, cexTile1]

/-- Adjacency graph of the two squares along the shared line. -/
def cexG : List (List AdjData) :=
  [[⟨1, cexLine, Direction.forward⟩], [⟨0, cexLine, Direction.backward⟩]]

/-- The left square after the batch seed marks it aligned. -/
def cexTile0A : Rhomb := ⟨cexPoints0, ⟨1, 1, cexLine, cexLine⟩, true, false, cexPoints0⟩

/-- The left square translated by (4,0) and marked aligned. -/
def cexTile0Moved : Rhomb :=
  ⟨[(4, 0), (4, 2), (6, 2), (6, 0)], ⟨1, 1, cexLine, cexLine⟩, true, false, cexPoints0⟩

/-- The locked right square marked aligned without moving. -/
def cexTile1A : Rhomb := ⟨cexPoints1, ⟨7, 1, cexLine, cexLine⟩, true, true, cexPoints1⟩

/-- The locked right square translated by (-4,0) and marked aligned. -/
def cexTile1Moved : Rhomb :=
  ⟨[(2, 0), (2, 2), (4, 2), (4, 0)], ⟨7, 1, cexLine, cexLine⟩, true, true, cexPoints1⟩

/-- A single locked one-vertex tile (for the reset evaluation). -/
def cexLockTile : Rhomb := ⟨[(0, 0)], ⟨0, 0, cexLine, cexLine⟩, false, true, [(0, 0)]⟩

/-- The one-tile list holding the locked tile. -/
def cexLockTiles : List Rhomb := [cexLockTile]

/-- A bare unaligned tile with no vertices (for the queue evaluation). -/
def cexQTile : Rhomb := ⟨[], ⟨0, 0, cexLine, cexLine⟩, false, false, []⟩

/-- Three bare tiles: tile 0 has two unaligned neighbours. -/
def cexQTiles : List Rhomb := [cexQTile, cexQTile, cexQTile]

/-- Graph in which tile 0 has the two neighbours 1 and 2. -/
def cexQG : List (List AdjData) :=
  [[⟨1, cexLine, Direction.forward⟩, ⟨2, cexLine, Direction.backward⟩], [], []]

/-! ## General lemmas about the geometry kernel -/

/-- Distance between two points whose difference is a direction vector of
angle a scaled by a nonnegative factor s. -/
theorem ptDist_eq_of_dir (p q : ℝ × ℝ) (s a : ℝ) (hs : 0 ≤ s)
    (hx : q.1 - p.1 = s * Real.cos a) (hy : q.2 - p.2 = s * Real.sin a) :
    ptDist p q = s := by
  unfold ptDist
  rw [hx, hy]
  have hsq : (s * Real.cos a) ^ 2 + (s * Real.sin a) ^ 2 = s ^ 2 := by
    have h := Real.cos_sq_add_sin_sq a
    nlinarith [h]
  rw [hsq, Real.sqrt_sq hs]

/-- The distance between two vertices is symmetric. -/
theorem ptDist_comm (p q : ℝ × ℝ) : ptDist p q = ptDist q p := by
  unfold ptDist
  ring_nf

/-- A vector at angle a scaled by a nonzero factor is not the zero vector. -/
theorem cos_sin_scaled_ne_zero (s a : ℝ) (hs : s ≠ 0) :
    ¬(s * Real.cos a = 0 ∧ s * Real.sin a = 0) := by
  rintro ⟨hc, hs'⟩
  have h := Real.cos_sq_add_sin_sq a
  have hc' : Real.cos a = 0 := by
    rcases mul_eq_zero.mp hc with h' | h'
    · exact absurd h' hs
    · exact h'
  have hs'' : Real.sin a = 0 := by
    rcases mul_eq_zero.mp hs' with h' | h'
    · exact absurd h' hs
    · exact h'
  rw [hc', hs''] at h
  norm_num at h

/-- When the two directions are nonzero and exactly orthogonal, the
acute-angle computation returns exactly 90 degrees. -/
theorem getAngleBetweenLines_perp (x1 y1 x2 y2 x3 y3 x4 y4 : ℝ)
    (hdot : (x2 - x1) * (x4 - x3) + (y2 - y1) * (y4 - y3) = 0)
    (h1 : ¬(x2 - x1 = 0 ∧ y2 - y1 = 0)) (h2 : ¬(x4 - x3 = 0 ∧ y4 - y3 = 0)) :
    getAngleBetweenLines x1 y1 x2 y2 x3 y3 x4 y4 = 90 := by
  have hm1 : 0 < (x2 - x1) * (x2 - x1) + (y2 - y1) * (y2 - y1) := by
    rcases not_and_or.mp h1 with h | h
    · have h' : 0 < (x2 - x1) * (x2 - x1) := mul_self_pos.mpr h
      nlinarith [mul_self_nonneg (y2 - y1)]
    · have h' : 0 < (y2 - y1) * (y2 - y1) := mul_self_pos.mpr h
      nlinarith [mul_self_nonneg (x2 - x1)]
  have hm2 : 0 < (x4 - x3) * (x4 - x3) + (y4 - y3) * (y4 - y3) := by
    rcases not_and_or.mp h2 with h | h
    · have h' : 0 < (x4 - x3) * (x4 - x3) := mul_self_pos.mpr h
      nlinarith [mul_self_nonneg (y4 - y3)]
    · have h' : 0 < (y4 - y3) * (y4 - y3) := mul_self_pos.mpr h
      nlinarith [mul_self_nonneg (x4 - x3)]
  have hs1 : Real.sqrt ((x2 - x1) * (x2 - x1) + (y2 - y1) * (y2 - y1)) ≠ 0 := by
    positivity
  have hs2 : Real.sqrt ((x4 - x3) * (x4 - x3) + (y4 - y3) * (y4 - y3)) ≠ 0 := by
    positivity
  simp only [getAngleBetweenLines]
  rw [if_neg (by push_neg; exact ⟨hs1, hs2⟩)]
  rw [hdot, zero_div]
  have hclamp : max (-1 : ℝ) (min 1 (0 : ℝ)) = 0 := by norm_num
  rw [hclamp, Real.arccos_zero]
  have h90 : Real.pi / 2 * 180 / Real.pi = 90 := by
    have hpi : Real.pi ≠ 0 := Real.pi_ne_zero
    field_simp
    ring
  rw [h90, RIGHT_ANGLE]
  norm_num

/-- A vector (s sin a, -(s cos a)) with s nonzero is not the zero vector. -/
theorem sin_neg_cos_scaled_ne_zero (s a : ℝ) (hs : s ≠ 0) :
    ¬(s * Real.sin a = 0 ∧ -(s * Real.cos a) = 0) := by
  rintro ⟨hx, hy⟩
  have hsin : Real.sin a = 0 := by
    rcases mul_eq_zero.mp hx with h | h
    · exact absurd h hs
    · exact h
  have hcos : Real.cos a = 0 := by
    have hy' : s * Real.cos a = 0 := by linarith
    rcases mul_eq_zero.mp hy' with h | h
    · exact absurd h hs
    · exact h
  have h := Real.cos_sq_add_sin_sq a
  rw [hcos, hsin] at h
  norm_num at h

/-! ## Claim theorems: geometry -/

/-- Claim C9: the segment intersection test returns a point exactly when
both segments have nonzero length, the parametric denominator is nonzero
(the segments are not parallel), and both parameters ua and ub lie in
[0,1]; in every other case it returns no intersection, and being a total
function it can never fail. -/
theorem claim_C9_intersection_test (line1 line2 : GridLine) :
    (intersect line1 line2).isSome = true ↔
      ¬(line1.x1 = line1.x2 ∧ line1.y1 = line1.y2) ∧
      ¬(line2.x1 = line2.x2 ∧ line2.y1 = line2.y2) ∧
      segmentDenominator line1 line2 ≠ 0 ∧
      0 ≤ segmentUa line1 line2 ∧ segmentUa line1 line2 ≤ 1 ∧
      0 ≤ segmentUb line1 line2 ∧ segmentUb line1 line2 ≤ 1 := by
  simp only [intersect, segmentDenominator, segmentUa, segmentUb]
  split_ifs with h1 h2 h3
  · simp only [Option.isSome_none, Bool.false_eq_true, false_iff]
    rintro ⟨hA, hB, _⟩
    rcases h1 with h | h
    · exact hA h
    · exact hB h
  · simp only [Option.isSome_none, Bool.false_eq_true, false_iff]
    rintro ⟨_, _, hd, _⟩
    exact hd h2
  · simp only [Option.isSome_none, Bool.false_eq_true, false_iff]
    rintro ⟨_, _, _, hu1, hu2, hu3, hu4⟩
    rcases h3 with h | h | h | h
    · linarith
    · linarith
    · linarith
    · linarith
  · simp only [Option.isSome_some, true_iff]
    push_neg at h3
    rw [not_or] at h1
    exact ⟨h1.1, h1.2, h2, h3.1, h3.2.1, h3.2.2.1, h3.2.2.2⟩

/-- The perpendicularity log test passes when the two directions are
nonzero and exactly orthogonal. -/
theorem abs_getAngle_sub_right_lt (x1 y1 x2 y2 x3 y3 x4 y4 : ℝ)
    (hdot : (x2 - x1) * (x4 - x3) + (y2 - y1) * (y4 - y3) = 0)
    (h1 : ¬(x2 - x1 = 0 ∧ y2 - y1 = 0)) (h2 : ¬(x4 - x3 = 0 ∧ y4 - y3 = 0)) :
    |getAngleBetweenLines x1 y1 x2 y2 x3 y3 x4 y4 - RIGHT_ANGLE| < ANGLE_TOLERANCE := by
  rw [getAngleBetweenLines_perp x1 y1 x2 y2 x3 y3 x4 y4 hdot h1 h2]
  norm_num [RIGHT_ANGLE, ANGLE_TOLERANCE]

/-- Claim C4: every tile built by findRhomb from an intersection of two
lines of different families (family difference 1 to 4) has exactly 4
vertices, and the four consecutive side lengths of the quadrilateral they
form all equal SCALE. -/
theorem claim_C4_rhombus_property (i : Intersection)
    (h : (i.line2.family : ℤ) - (i.line1.family : ℤ) = 1 ∨
         (i.line2.family : ℤ) - (i.line1.family : ℤ) = 2 ∨
         (i.line2.family : ℤ) - (i.line1.family : ℤ) = 3 ∨
         (i.line2.family : ℤ) - (i.line1.family : ℤ) = 4) :
    (findRhomb i).points.length = 4 ∧
    ptDist ((findRhomb i).points.getD 0 (0, 0)) ((findRhomb i).points.getD 1 (0, 0)) = SCALE ∧
    ptDist ((findRhomb i).points.getD 1 (0, 0)) ((findRhomb i).points.getD 2 (0, 0)) = SCALE ∧
    ptDist ((findRhomb i).points.getD 2 (0, 0)) ((findRhomb i).points.getD 3 (0, 0)) = SCALE ∧
    ptDist ((findRhomb i).points.getD 3 (0, 0)) ((findRhomb i).points.getD 0 (0, 0)) = SCALE := by
  have hS : (0 : ℝ) ≤ SCALE := by norm_num [SCALE]
  refine ⟨by simp [findRhomb], ?_, ?_, ?_, ?_⟩
  · apply ptDist_eq_of_dir _ _ SCALE i.line2.angle hS
    · simp only [findRhomb, List.getD_cons_zero, List.getD_cons_succ]
      ring
    · simp only [findRhomb, List.getD_cons_zero, List.getD_cons_succ]
      ring
  · apply ptDist_eq_of_dir _ _ SCALE
      (i.line2.angle + angleMap ((i.line2.family : ℤ) - (i.line1.family : ℤ))) hS
    · simp only [findRhomb, List.getD_cons_zero, List.getD_cons_succ]
      ring
    · simp only [findRhomb, List.getD_cons_zero, List.getD_cons_succ]
      ring
  · rw [ptDist_comm]
    apply ptDist_eq_of_dir _ _ SCALE i.line2.angle hS
    · simp only [findRhomb, List.getD_cons_zero, List.getD_cons_succ]
      ring
    · simp only [findRhomb, List.getD_cons_zero, List.getD_cons_succ]
      ring
  · rw [ptDist_comm]
    apply ptDist_eq_of_dir _ _ SCALE
      (i.line2.angle + angleMap ((i.line2.family : ℤ) - (i.line1.family : ℤ))) hS
    · simp only [findRhomb, List.getD_cons_zero, List.getD_cons_succ]
      ring
    · simp only [findRhomb, List.getD_cons_zero, List.getD_cons_succ]
      ring

/-- Claim C5: for an intersection of two pentagrid lines from families
f1 < f2 < 5 (so the family difference is 1, 2, 3 or 4), the tile built by
findRhomb passes the perpendicularity consistency check: edge (v0,v1) is
perpendicular to line2's segment and edge (v1,v2) is perpendicular to
line1's segment, for every family difference. -/
theorem claim_C5_edge_perpendicularity (f1 f2 : ℕ) (n1 n2 : ℤ) (x y : ℝ)
    (h1 : f1 < f2) (h2 : f2 < 5) :
    rhombPerpendicularityCheck ⟨x, y, gridLineFor f1 n1, gridLineFor f2 n2⟩ := by
  have hkey : Real.sin ((f1 : ℝ) * (2 * Real.pi) / 5) *
        Real.cos ((f2 : ℝ) * (2 * Real.pi) / 5 + angleMap ((f2 : ℤ) - (f1 : ℤ))) -
      Real.cos ((f1 : ℝ) * (2 * Real.pi) / 5) *
        Real.sin ((f2 : ℝ) * (2 * Real.pi) / 5 + angleMap ((f2 : ℤ) - (f1 : ℤ))) = 0 := by
    rw [← Real.sin_sub, Real.sin_eq_zero_iff]
    interval_cases f2 <;> interval_cases f1 <;>
      norm_num [angleMap] <;>
      first
        | (refine ⟨(-1 : ℤ), ?_⟩; push_cast; ring1)
        | (refine ⟨(-2 : ℤ), ?_⟩; push_cast; ring1)
  simp only [rhombPerpendicularityCheck, findRhomb, gridLineFor,
    List.getD_cons_zero, List.getD_cons_succ]
  constructor
  · apply abs_getAngle_sub_right_lt
    · ring
    · rintro ⟨ha, hb⟩
      exact cos_sin_scaled_ne_zero SCALE ((f2 : ℝ) * (2 * Real.pi) / 5)
        (by norm_num [SCALE]) ⟨by linear_combination ha, by linear_combination hb⟩
    · rintro ⟨ha, hb⟩
      exact sin_neg_cos_scaled_ne_zero (2 * GRID_SIZE) ((f2 : ℝ) * (2 * Real.pi) / 5)
        (by norm_num [GRID_SIZE]) ⟨by linear_combination ha, by linear_combination hb⟩
  · apply abs_getAngle_sub_right_lt
    · linear_combination (2 * GRID_SIZE * SCALE) * hkey
    · rintro ⟨ha, hb⟩
      exact cos_sin_scaled_ne_zero SCALE
        ((f2 : ℝ) * (2 * Real.pi) / 5 + angleMap ((f2 : ℤ) - (f1 : ℤ)))
        (by norm_num [SCALE]) ⟨by linear_combination ha, by linear_combination hb⟩
    · rintro ⟨ha, hb⟩
      exact sin_neg_cos_scaled_ne_zero (2 * GRID_SIZE) ((f1 : ℝ) * (2 * Real.pi) / 5)
        (by norm_num [GRID_SIZE]) ⟨by linear_combination ha, by linear_combination hb⟩

/-! ## Adjacency graph: membership, sorting, and the symmetry of buildRhombGraph -/

theorem EPSILON_pos : (0 : ℝ) < EPSILON := by norm_num [EPSILON]

theorem mem_bucketFor (d : Direction) (x y : ℝ) (line : GridLine)
    (cands : List CandidateRec) (e : BucketEntry) :
    e ∈ bucketFor d x y line cands ↔
      ∃ c ∈ cands, ¬ candDist x y c < EPSILON ∧ EPSILON < dirSign d * candProj x y line c ∧
        e = ⟨c.index, candDist x y c⟩ := by
  cases d with
  | forward =>
    simp only [bucketFor, forwardBucket, List.mem_filterMap, dirSign, one_mul]
    constructor
    · rintro ⟨c, hc, he⟩
      split_ifs at he with h1 h2
      exact ⟨c, hc, h1, h2, (Option.some_inj.mp he).symm⟩
    · rintro ⟨c, hc, h1, h2, he⟩
      exact ⟨c, hc, by rw [if_neg h1, if_pos h2, he]⟩
  | backward =>
    simp only [bucketFor, backwardBucket, List.mem_filterMap, dirSign, neg_one_mul]
    constructor
    · rintro ⟨c, hc, he⟩
      split_ifs at he with h1 h2 h3
      exact ⟨c, hc, h1, by linarith, (Option.some_inj.mp he).symm⟩
    · rintro ⟨c, hc, h1, h2, he⟩
      have h2' : candProj x y line c < -EPSILON := by linarith
      have h3 : ¬ candProj x y line c > EPSILON := by
        have := EPSILON_pos; push_neg; linarith
      exact ⟨c, hc, by rw [if_neg h1, if_neg h3, if_pos h2', he]⟩

theorem mem_candidatesOnLine (tiles : List Rhomb) (i : ℕ) (line : GridLine)
    (c : CandidateRec) :
    c ∈ candidatesOnLine tiles i line ↔
      ∃ h : c.index < tiles.length, c.index ≠ i ∧ sharesLine tiles[c.index] line ∧
        c.x = tiles[c.index].intersection.x ∧ c.y = tiles[c.index].intersection.y := by
  simp only [candidatesOnLine, List.mem_filterMap]
  constructor
  · rintro ⟨⟨k, t⟩, hmem, he⟩
    rw [List.mem_enum_iff_getElem?] at hmem
    have hk : k < tiles.length := by
      by_contra hge
      rw [List.getElem?_eq_none (Nat.le_of_not_lt hge)] at hmem
      exact absurd hmem (by simp)
    have ht : t = tiles[k] := by
      rw [List.getElem?_eq_getElem hk] at hmem
      exact (Option.some_inj.mp hmem).symm
    split_ifs at he with h1 h2
    have hc := Option.some_inj.mp he
    subst hc
    exact ⟨hk, h1, ht ▸ h2, by rw [ht], by rw [ht]⟩
  · rintro ⟨hk, hne, hsh, hx, hy⟩
    refine ⟨(c.index, tiles[c.index]), ?_, ?_⟩
    · rw [List.mem_enum_iff_getElem?]
      exact List.getElem?_eq_getElem hk
    · rw [if_neg hne, if_pos hsh, ← hx, ← hy]


theorem mem_findClosest (x y : ℝ) (line : GridLine) (cands : List CandidateRec)
    (nr : NeighborRec) :
    nr ∈ findClosestNeighborsOnLine x y line cands ↔
      cands.length ≠ 0 ∧
        ∃ f, ((bucketFor nr.direction x y line cands).mergeSort byDistance).head? = some f ∧
          f.index = nr.index := by
  unfold findClosestNeighborsOnLine
  split_ifs with h0
  · simp [h0]
  · obtain ⟨idx, dir⟩ := nr
    rcases hf : (forwardBucket x y line cands).mergeSort byDistance with _ | ⟨f, ftail⟩ <;>
      rcases hb : (backwardBucket x y line cands).mergeSort byDistance with _ | ⟨b, btail⟩ <;>
        cases dir <;>
          simp [bucketFor, hf, hb, h0, NeighborRec.mk.injEq, eq_comm]

theorem byDistance_trans (a b c : BucketEntry) :
    byDistance a b = true → byDistance b c = true → byDistance a c = true := by
  simp only [byDistance, decide_eq_true_eq]
  intro hab hbc
  linarith

theorem byDistance_total (a b : BucketEntry) :
    (byDistance a b || byDistance b a) = true := by
  simp only [byDistance, Bool.or_eq_true, decide_eq_true_eq]
  exact le_total _ _

theorem head_mergeSort_le (l : List BucketEntry) (f : BucketEntry)
    (hf : (l.mergeSort byDistance).head? = some f) :
    f ∈ l ∧ ∀ e ∈ l, f.distance ≤ e.distance := by
  have hsorted := List.sorted_mergeSort byDistance_trans byDistance_total l
  rcases hms : l.mergeSort byDistance with _ | ⟨h, t⟩
  · rw [hms] at hf
    exact absurd hf (by simp)
  · rw [hms] at hf hsorted
    have hfh : f = h := by simpa using hf.symm
    subst hfh
    rw [List.pairwise_cons] at hsorted
    refine ⟨List.mem_mergeSort.mp (by rw [hms]; exact List.mem_cons_self _ _), ?_⟩
    intro e he
    have he2 : e ∈ l.mergeSort byDistance := List.mem_mergeSort.mpr he
    rw [hms] at he2
    rcases List.mem_cons.mp he2 with rfl | het
    · exact le_refl _
    · have := hsorted.1 e het
      simpa [byDistance] using this

theorem head_mergeSort_of_strict (l : List BucketEntry) (e0 : BucketEntry)
    (he0 : e0 ∈ l)
    (hmin : ∀ e ∈ l, e.index ≠ e0.index → e0.distance < e.distance) :
    ∃ f, (l.mergeSort byDistance).head? = some f ∧ f.index = e0.index := by
  rcases hms : l.mergeSort byDistance with _ | ⟨h, t⟩
  · have hl0 := (List.mergeSort_perm l byDistance).length_eq
    rw [hms] at hl0
    rw [List.length_eq_zero.mp hl0.symm] at he0
    exact absurd he0 (by simp)
  · have hh := head_mergeSort_le l h (by rw [hms]; rfl)
    refine ⟨h, rfl, ?_⟩
    by_contra hne
    have := hmin h hh.1 hne
    have := hh.2 e0 he0
    linarith

theorem collinear_dist_eq (S : GridLine)
    (hlen : (S.x2 - S.x1) * (S.x2 - S.x1) + (S.y2 - S.y1) * (S.y2 - S.y1) ≠ 0)
    (xa ya xb yb : ℝ)
    (ha : (xa - S.x1) * (S.y2 - S.y1) - (ya - S.y1) * (S.x2 - S.x1) = 0)
    (hb : (xb - S.x1) * (S.y2 - S.y1) - (yb - S.y1) * (S.x2 - S.x1) = 0) :
    Real.sqrt ((xb - xa) * (xb - xa) + (yb - ya) * (yb - ya)) =
      |(xb - xa) * lineDirX S + (yb - ya) * lineDirY S| := by
  simp only [lineDirX, lineDirY]
  set Dx := S.x2 - S.x1 with hDx
  set Dy := S.y2 - S.y1 with hDy
  have hq : (0 : ℝ) ≤ Dx * Dx + Dy * Dy :=
    add_nonneg (mul_self_nonneg _) (mul_self_nonneg _)
  have hqpos : (0 : ℝ) < Dx * Dx + Dy * Dy := lt_of_le_of_ne hq (Ne.symm hlen)
  have hL : (0 : ℝ) < Real.sqrt (Dx * Dx + Dy * Dy) := Real.sqrt_pos.mpr hqpos
  have hcross : (xb - xa) * Dy - (yb - ya) * Dx = 0 := by linear_combination hb - ha
  have hkey : ((xb - xa) * (xb - xa) + (yb - ya) * (yb - ya)) * (Dx * Dx + Dy * Dy) =
      ((xb - xa) * Dx + (yb - ya) * Dy) ^ 2 := by
    linear_combination ((xb - xa) * Dy - (yb - ya) * Dx) * hcross
  have h1 : Real.sqrt ((xb - xa) * (xb - xa) + (yb - ya) * (yb - ya)) *
      Real.sqrt (Dx * Dx + Dy * Dy) = |(xb - xa) * Dx + (yb - ya) * Dy| := by
    rw [← Real.sqrt_mul (add_nonneg (mul_self_nonneg _) (mul_self_nonneg _)), hkey]
    exact Real.sqrt_sq_eq_abs _
  have h2 : (xb - xa) * (Dx / Real.sqrt (Dx * Dx + Dy * Dy)) +
      (yb - ya) * (Dy / Real.sqrt (Dx * Dx + Dy * Dy)) =
      ((xb - xa) * Dx + (yb - ya) * Dy) / Real.sqrt (Dx * Dx + Dy * Dy) := by ring
  rw [h2, abs_div, abs_of_pos hL, ← h1]
  field_simp


theorem dirSign_opposite (d : Direction) : dirSign d.opposite = -dirSign d := by
  cases d <;> simp [dirSign, Direction.opposite]

theorem abs_eq_dirSign_mul (d : Direction) (t : ℝ) (h : 0 ≤ dirSign d * t) :
    |t| = dirSign d * t := by
  cases d with
  | forward =>
    rw [abs_of_nonneg (by simpa [dirSign] using h)]
    simp [dirSign]
  | backward =>
    have h2 : t ≤ 0 := by
      simp only [dirSign] at h
      linarith
    rw [abs_of_nonpos h2]
    simp [dirSign]

theorem mem_rhombAdjacency (tiles : List Rhomb) (i : ℕ) (hi : i < tiles.length) (a : AdjData) :
    a ∈ rhombAdjacency tiles i ↔
      ((∃ nr ∈ findClosestNeighborsOnLine tiles[i].intersection.x tiles[i].intersection.y
          tiles[i].intersection.line1 (candidatesOnLine tiles i tiles[i].intersection.line1),
          a = ⟨nr.index, tiles[i].intersection.line1, nr.direction⟩) ∨
       (∃ nr ∈ findClosestNeighborsOnLine tiles[i].intersection.x tiles[i].intersection.y
          tiles[i].intersection.line2 (candidatesOnLine tiles i tiles[i].intersection.line2),
          a = ⟨nr.index, tiles[i].intersection.line2, nr.direction⟩)) := by
  unfold rhombAdjacency
  rw [List.getD_eq_getElem tiles defaultRhomb hi]
  simp only [List.mem_append, List.mem_map]
  constructor
  · rintro (⟨nr, hnr, he⟩ | ⟨nr, hnr, he⟩)
    · exact Or.inl ⟨nr, hnr, he.symm⟩
    · exact Or.inr ⟨nr, hnr, he.symm⟩
  · rintro (⟨nr, hnr, he⟩ | ⟨nr, hnr, he⟩)
    · exact Or.inl ⟨nr, hnr, he.symm⟩
    · exact Or.inr ⟨nr, hnr, he.symm⟩

theorem buildRhombGraph_getD (tiles : List Rhomb) (i : ℕ) (hi : i < tiles.length) :
    (buildRhombGraph tiles).getD i [] = rhombAdjacency tiles i := by
  unfold buildRhombGraph
  rw [List.getD_eq_getElem _ _ (by simpa using hi)]
  simp


theorem findClosest_symm
    (tiles : List Rhomb) (S : GridLine) (i j : ℕ)
    (hlineid : ∀ t ∈ tiles, ∀ u ∈ tiles,
      ∀ l ∈ [t.intersection.line1, t.intersection.line2],
      ∀ m ∈ [u.intersection.line1, u.intersection.line2],
      l.family = m.family → l.n = m.n → l = m)
    (hcol : ∀ t ∈ tiles, ∀ l ∈ [t.intersection.line1, t.intersection.line2],
      (t.intersection.x - l.x1) * (l.y2 - l.y1) -
        (t.intersection.y - l.y1) * (l.x2 - l.x1) = 0)
    (hlen : ∀ t ∈ tiles, ∀ l ∈ [t.intersection.line1, t.intersection.line2],
      (l.x2 - l.x1) * (l.x2 - l.x1) + (l.y2 - l.y1) * (l.y2 - l.y1) ≠ 0)
    (hsep : ∀ a b : ℕ, ∀ ha : a < tiles.length, ∀ hb : b < tiles.length, a ≠ b →
      EPSILON * EPSILON <
        (tiles[a].intersection.x - tiles[b].intersection.x) *
          (tiles[a].intersection.x - tiles[b].intersection.x) +
        (tiles[a].intersection.y - tiles[b].intersection.y) *
          (tiles[a].intersection.y - tiles[b].intersection.y))
    (hi : i < tiles.length)
    (hSi : S = tiles[i].intersection.line1 ∨ S = tiles[i].intersection.line2)
    (nr : NeighborRec)
    (hnr : nr ∈ findClosestNeighborsOnLine tiles[i].intersection.x tiles[i].intersection.y S
      (candidatesOnLine tiles i S))
    (hnj : nr.index = j) :
    ∃ hjlt : j < tiles.length,
      (S = tiles[j].intersection.line1 ∨ S = tiles[j].intersection.line2) ∧
      (⟨i, nr.direction.opposite⟩ : NeighborRec) ∈
        findClosestNeighborsOnLine tiles[j].intersection.x tiles[j].intersection.y S
          (candidatesOnLine tiles j S) := by
  obtain ⟨hcne, f, hhead, hfi⟩ := (mem_findClosest _ _ _ _ _).mp hnr
  obtain ⟨hfmem, hfmin⟩ := head_mergeSort_le _ _ hhead
  rw [mem_bucketFor] at hfmem
  obtain ⟨cj, hcjmem, hcjdist, hcjproj, hfe⟩ := hfmem
  have hcji : cj.index = j := by rw [← hnj, ← hfi, hfe]
  subst hcji
  rw [mem_candidatesOnLine] at hcjmem
  obtain ⟨hjlt0, hcjne, hcjsh, hcjx, hcjy⟩ := hcjmem
  have hti : tiles[i] ∈ tiles := List.getElem_mem hi
  have hSmem_i : S ∈ [tiles[i].intersection.line1, tiles[i].intersection.line2] := by
    rcases hSi with h | h <;> simp [h]
  have hline_of_share : ∀ k : ℕ, ∀ hk : k < tiles.length, sharesLine tiles[k] S →
      S ∈ [tiles[k].intersection.line1, tiles[k].intersection.line2] := by
    intro k hk hsh
    rcases hsh with ⟨hfam, hn⟩ | ⟨hfam, hn⟩
    · rw [← hlineid _ (List.getElem_mem hk) _ hti _ (by simp) _ hSmem_i hfam hn]
      simp
    · rw [← hlineid _ (List.getElem_mem hk) _ hti _ (by simp) _ hSmem_i hfam hn]
      simp
  have htj : tiles[cj.index] ∈ tiles := List.getElem_mem hjlt0
  have hSmem_j := hline_of_share cj.index hjlt0 hcjsh
  have hSj : S = tiles[cj.index].intersection.line1 ∨
      S = tiles[cj.index].intersection.line2 := by
    simpa using hSmem_j
  set xi := tiles[i].intersection.x with hxieq
  set yi := tiles[i].intersection.y with hyieq
  set xj := tiles[cj.index].intersection.x with hxjeq
  set yj := tiles[cj.index].intersection.y with hyjeq
  have hcol_i := hcol _ hti _ hSmem_i
  have hcol_j := hcol _ htj _ hSmem_j
  have hSlen := hlen _ hti _ hSmem_i
  have hshare_i : sharesLine tiles[i] S := by
    rcases hSi with h | h
    · exact Or.inl ⟨by rw [h], by rw [h]⟩
    · exact Or.inr ⟨by rw [h], by rw [h]⟩
  have hci_mem : (⟨i, xi, yi⟩ : CandidateRec) ∈ candidatesOnLine tiles cj.index S := by
    rw [mem_candidatesOnLine]
    exact ⟨hi, fun h => hcjne h.symm, hshare_i, rfl, rfl⟩
  have hanti : candProj xj yj S (⟨i, xi, yi⟩ : CandidateRec) =
      - candProj xi yi S cj := by
    simp only [candProj, hcjx, hcjy]
    ring
  have hdist_ji : candDist xj yj (⟨i, xi, yi⟩ : CandidateRec) =
      |candProj xj yj S (⟨i, xi, yi⟩ : CandidateRec)| := by
    simp only [candDist, candProj]
    exact collinear_dist_eq S hSlen _ _ _ _ hcol_j hcol_i
  have hsep_ji := hsep i cj.index hi hjlt0 (fun h => hcjne h.symm)
  have hdistgt : EPSILON < candDist xj yj (⟨i, xi, yi⟩ : CandidateRec) := by
    simp only [candDist]
    rw [Real.lt_sqrt (le_of_lt EPSILON_pos), pow_two]
    exact hsep_ji
  have hprojopp : EPSILON < dirSign nr.direction.opposite *
      candProj xj yj S (⟨i, xi, yi⟩ : CandidateRec) := by
    rw [dirSign_opposite, hanti]
    simpa using hcjproj
  have hei_mem : (⟨i, candDist xj yj (⟨i, xi, yi⟩ : CandidateRec)⟩ : BucketEntry) ∈
      bucketFor nr.direction.opposite xj yj S (candidatesOnLine tiles cj.index S) := by
    rw [mem_bucketFor]
    exact ⟨_, hci_mem, by push_neg; linarith, hprojopp, rfl⟩
  have habs_p : |candProj xi yi S cj| = dirSign nr.direction * candProj xi yi S cj :=
    abs_eq_dirSign_mul _ _ (le_of_lt (lt_trans EPSILON_pos hcjproj))
  have hfd : f.distance = dirSign nr.direction * candProj xi yi S cj := by
    rw [hfe]
    show candDist xi yi cj = dirSign nr.direction * candProj xi yi S cj
    have hde : candDist xi yi cj = |candProj xi yi S cj| := by
      simp only [candDist, candProj, hcjx, hcjy]
      exact collinear_dist_eq S hSlen _ _ _ _ hcol_i hcol_j
    rw [hde, habs_p]
  have hstrict : ∀ e ∈ bucketFor nr.direction.opposite xj yj S
      (candidatesOnLine tiles cj.index S), e.index ≠ i →
      (⟨i, candDist xj yj (⟨i, xi, yi⟩ : CandidateRec)⟩ : BucketEntry).distance < e.distance := by
    intro e he hene
    rw [mem_bucketFor] at he
    obtain ⟨ck, hckmem, hckdist, hckproj, hee⟩ := he
    rw [mem_candidatesOnLine] at hckmem
    obtain ⟨hklt, hkne, hksh, hckx, hcky⟩ := hckmem
    have hkni : ck.index ≠ i := by
      rw [hee] at hene
      simpa using hene
    have htk : tiles[ck.index] ∈ tiles := List.getElem_mem hklt
    have hSmem_k := hline_of_share ck.index hklt hksh
    have hcol_k := hcol _ htk _ hSmem_k
    have hckproj2 : EPSILON < -(dirSign nr.direction) * candProj xj yj S ck := by
      rw [← dirSign_opposite]
      exact hckproj
    have habs_v : |candProj xj yj S ck| =
        -(dirSign nr.direction) * candProj xj yj S ck := by
      rw [← dirSign_opposite]
      exact abs_eq_dirSign_mul _ _ (le_of_lt (lt_trans EPSILON_pos hckproj))
    have hdk : candDist xj yj ck = |candProj xj yj S ck| := by
      simp only [candDist, candProj, hckx, hcky]
      exact collinear_dist_eq S hSlen _ _ _ _ hcol_j hcol_k
    rw [hee]
    show candDist xj yj (⟨i, xi, yi⟩ : CandidateRec) < candDist xj yj ck
    rw [hdist_ji, hdk, hanti]
    by_contra hnot
    push_neg at hnot
    rw [abs_neg, habs_p, habs_v] at hnot
    have hadd : candProj xi yi S
        (⟨ck.index, tiles[ck.index].intersection.x, tiles[ck.index].intersection.y⟩ :
          CandidateRec) = candProj xi yi S cj + candProj xj yj S ck := by
      simp only [candProj, hcjx, hcjy, hckx, hcky]
      ring
    have hsw : 0 ≤ dirSign nr.direction * candProj xi yi S
        (⟨ck.index, tiles[ck.index].intersection.x, tiles[ck.index].intersection.y⟩ :
          CandidateRec) := by
      rw [hadd, mul_add]
      linarith
    have hsep_ik := hsep ck.index i hklt hi hkni
    have hdistik : EPSILON < candDist xi yi
        (⟨ck.index, tiles[ck.index].intersection.x, tiles[ck.index].intersection.y⟩ :
          CandidateRec) := by
      simp only [candDist]
      rw [Real.lt_sqrt (le_of_lt EPSILON_pos), pow_two]
      exact hsep_ik
    have hdik_eq : candDist xi yi
        (⟨ck.index, tiles[ck.index].intersection.x, tiles[ck.index].intersection.y⟩ :
          CandidateRec) = |candProj xi yi S
        (⟨ck.index, tiles[ck.index].intersection.x, tiles[ck.index].intersection.y⟩ :
          CandidateRec)| := by
      simp only [candDist, candProj]
      exact collinear_dist_eq S hSlen _ _ _ _ hcol_i hcol_k
    have habs_w := abs_eq_dirSign_mul nr.direction _ hsw
    have hw_gt : EPSILON < dirSign nr.direction * candProj xi yi S
        (⟨ck.index, tiles[ck.index].intersection.x, tiles[ck.index].intersection.y⟩ :
          CandidateRec) := by
      rw [← habs_w, ← hdik_eq]
      exact hdistik
    have hck_mem_i : (⟨ck.index, tiles[ck.index].intersection.x,
        tiles[ck.index].intersection.y⟩ : CandidateRec) ∈ candidatesOnLine tiles i S := by
      rw [mem_candidatesOnLine]
      exact ⟨hklt, hkni, hksh, rfl, rfl⟩
    have hek_mem : (⟨ck.index, candDist xi yi
        (⟨ck.index, tiles[ck.index].intersection.x, tiles[ck.index].intersection.y⟩ :
          CandidateRec)⟩ : BucketEntry) ∈
        bucketFor nr.direction xi yi S (candidatesOnLine tiles i S) := by
      rw [mem_bucketFor]
      exact ⟨_, hck_mem_i, by push_neg; linarith, hw_gt, rfl⟩
    have hmin_k : f.distance ≤ candDist xi yi
        (⟨ck.index, tiles[ck.index].intersection.x, tiles[ck.index].intersection.y⟩ :
          CandidateRec) := hfmin _ hek_mem
    have hw_eq : candDist xi yi
        (⟨ck.index, tiles[ck.index].intersection.x, tiles[ck.index].intersection.y⟩ :
          CandidateRec) = dirSign nr.direction * candProj xi yi S cj +
          dirSign nr.direction * candProj xj yj S ck := by
      rw [hdik_eq, habs_w, hadd, mul_add]
    rw [hfd, hw_eq] at hmin_k
    have hep := EPSILON_pos
    linarith
  obtain ⟨f2, hf2head, hf2idx⟩ := head_mergeSort_of_strict _ _ hei_mem hstrict
  refine ⟨hjlt0, hSj, ?_⟩
  rw [mem_findClosest]
  refine ⟨?_, f2, hf2head, hf2idx⟩
  intro h0
  rw [List.length_eq_zero] at h0
  rw [h0] at hci_mem
  exact absurd hci_mem (by simp)


/-- C3: adjacency symmetry. -/
theorem claim_C3_adjacency_symmetry
    (tiles : List Rhomb) (i j : ℕ) (rec : AdjData)
    (hlineid : ∀ t ∈ tiles, ∀ u ∈ tiles,
      ∀ l ∈ [t.intersection.line1, t.intersection.line2],
      ∀ m ∈ [u.intersection.line1, u.intersection.line2],
      l.family = m.family → l.n = m.n → l = m)
    (hcol : ∀ t ∈ tiles, ∀ l ∈ [t.intersection.line1, t.intersection.line2],
      (t.intersection.x - l.x1) * (l.y2 - l.y1) -
        (t.intersection.y - l.y1) * (l.x2 - l.x1) = 0)
    (hlen : ∀ t ∈ tiles, ∀ l ∈ [t.intersection.line1, t.intersection.line2],
      (l.x2 - l.x1) * (l.x2 - l.x1) + (l.y2 - l.y1) * (l.y2 - l.y1) ≠ 0)
    (hsep : ∀ a b : ℕ, ∀ ha : a < tiles.length, ∀ hb : b < tiles.length, a ≠ b →
      EPSILON * EPSILON <
        (tiles[a].intersection.x - tiles[b].intersection.x) *
          (tiles[a].intersection.x - tiles[b].intersection.x) +
        (tiles[a].intersection.y - tiles[b].intersection.y) *
          (tiles[a].intersection.y - tiles[b].intersection.y))
    (hi : i < tiles.length)
    (hrec : rec ∈ (buildRhombGraph tiles).getD i [])
    (hrj : rec.neighborIndex = j) :
    ∃ rec2 ∈ (buildRhombGraph tiles).getD j [],
      rec2.neighborIndex = i ∧ rec2.sharedLine = rec.sharedLine ∧
      rec2.direction = rec.direction.opposite := by
  rw [buildRhombGraph_getD tiles i hi, mem_rhombAdjacency tiles i hi] at hrec
  rcases hrec with ⟨nr, hnr, he⟩ | ⟨nr, hnr, he⟩
  · subst he
    obtain ⟨hjlt, hSj, hmem⟩ := findClosest_symm tiles _ i j hlineid hcol hlen hsep hi
      (Or.inl rfl) nr hnr hrj
    refine ⟨⟨i, tiles[i].intersection.line1, nr.direction.opposite⟩, ?_, rfl, rfl, rfl⟩
    rw [buildRhombGraph_getD tiles j hjlt, mem_rhombAdjacency tiles j hjlt]
    rcases hSj with h | h
    · rw [← h]
      exact Or.inl ⟨⟨i, nr.direction.opposite⟩, hmem, rfl⟩
    · rw [← h]
      exact Or.inr ⟨⟨i, nr.direction.opposite⟩, hmem, rfl⟩
  · subst he
    obtain ⟨hjlt, hSj, hmem⟩ := findClosest_symm tiles _ i j hlineid hcol hlen hsep hi
      (Or.inr rfl) nr hnr hrj
    refine ⟨⟨i, tiles[i].intersection.line2, nr.direction.opposite⟩, ?_, rfl, rfl, rfl⟩
    rw [buildRhombGraph_getD tiles j hjlt, mem_rhombAdjacency tiles j hjlt]
    rcases hSj with h | h
    · rw [← h]
      exact Or.inl ⟨⟨i, nr.direction.opposite⟩, hmem, rfl⟩
    · rw [← h]
      exact Or.inr ⟨⟨i, nr.direction.opposite⟩, hmem, rfl⟩


theorem exCands0S : candidatesOnLine exTiles 0 exS = [⟨1, 1, 0⟩] := rfl

theorem exCands0T : candidatesOnLine exTiles 0 exT = [] := rfl

theorem exCands1S : candidatesOnLine exTiles 1 exS = [⟨0, 0, 0⟩] := rfl

theorem exCands1U : candidatesOnLine exTiles 1 exU = [] := rfl


theorem exDirX : lineDirX exS = 1 := by
  rw [lineDirX, show exS.x2 - exS.x1 = 1 by norm_num [exS],
    show exS.y2 - exS.y1 = 0 by norm_num [exS]]
  norm_num [Real.sqrt_one]

theorem exDirY : lineDirY exS = 0 := by
  rw [lineDirY, show exS.y2 - exS.y1 = 0 by norm_num [exS]]
  norm_num

theorem exDist01 : candDist 0 0 (⟨1, 1, 0⟩ : CandidateRec) = 1 := by
  rw [candDist]
  norm_num [Real.sqrt_one]

theorem exDist10 : candDist 1 0 (⟨0, 0, 0⟩ : CandidateRec) = 1 := by
  rw [candDist]
  norm_num [Real.sqrt_one]

theorem exProj01 : candProj 0 0 exS (⟨1, 1, 0⟩ : CandidateRec) = 1 := by
  rw [candProj, exDirX, exDirY]
  norm_num

theorem exProj10 : candProj 1 0 exS (⟨0, 0, 0⟩ : CandidateRec) = -1 := by
  rw [candProj, exDirX, exDirY]
  norm_num

theorem exFwd0 : forwardBucket 0 0 exS [⟨1, 1, 0⟩] = [⟨1, 1⟩] := by
  rw [forwardBucket]
  simp only [List.filterMap_cons, List.filterMap_nil, exDist01, exProj01]
  norm_num [EPSILON]

theorem exBwd0 : backwardBucket 0 0 exS [⟨1, 1, 0⟩] = [] := by
  rw [backwardBucket]
  simp only [List.filterMap_cons, List.filterMap_nil, exDist01, exProj01]
  norm_num [EPSILON]

theorem exFwd1 : forwardBucket 1 0 exS [⟨0, 0, 0⟩] = [] := by
  rw [forwardBucket]
  simp only [List.filterMap_cons, List.filterMap_nil, exDist10, exProj10]
  norm_num [EPSILON]

theorem exBwd1 : backwardBucket 1 0 exS [⟨0, 0, 0⟩] = [⟨0, 1⟩] := by
  rw [backwardBucket]
  simp only [List.filterMap_cons, List.filterMap_nil, exDist10, exProj10]
  norm_num [EPSILON]

theorem exFC0 : findClosestNeighborsOnLine 0 0 exS [⟨1, 1, 0⟩] =
    [⟨1, Direction.forward⟩] := by
  rw [findClosestNeighborsOnLine, exFwd0, exBwd0]
  norm_num

theorem exFC1 : findClosestNeighborsOnLine 1 0 exS [⟨0, 0, 0⟩] =
    [⟨0, Direction.backward⟩] := by
  rw [findClosestNeighborsOnLine, exFwd1, exBwd1]
  norm_num

theorem exAdj0 : rhombAdjacency exTiles 0 = [⟨1, exS, Direction.forward⟩] := by
  rw [rhombAdjacency]
  rw [show exTiles.getD 0 defaultRhomb = exTile0 from rfl]
  rw [show exTile0.intersection.line1 = exS from rfl,
    show exTile0.intersection.line2 = exT from rfl,
    show exTile0.intersection.x = 0 from rfl,
    show exTile0.intersection.y = 0 from rfl,
    exCands0S, exCands0T, exFC0]
  rw [show findClosestNeighborsOnLine 0 0 exT [] = [] from rfl]
  simp

theorem exAdj1 : rhombAdjacency exTiles 1 = [⟨0, exS, Direction.backward⟩] := by
  rw [rhombAdjacency]
  rw [show exTiles.getD 1 defaultRhomb = exTile1 from rfl]
  rw [show exTile1.intersection.line1 = exS from rfl,
    show exTile1.intersection.line2 = exU from rfl,
    show exTile1.intersection.x = 1 from rfl,
    show exTile1.intersection.y = 0 from rfl,
    exCands1S, exCands1U, exFC1]
  rw [show findClosestNeighborsOnLine 1 0 exU [] = [] from rfl]
  simp

theorem exGraph : buildRhombGraph exTiles =
    [[⟨1, exS, Direction.forward⟩], [⟨0, exS, Direction.backward⟩]] := by
  rw [buildRhombGraph]
  rw [show exTiles.length = 2 from rfl]
  rw [show List.range 2 = [0, 1] from rfl]
  rw [List.map_cons, List.map_cons, List.map_nil, exAdj0, exAdj1]


theorem claim_C3_adjacency_symmetry_witness :
    ∃ rec2 ∈ (buildRhombGraph exTiles).getD 1 [],
      rec2.neighborIndex = 0 ∧
      rec2.sharedLine = (⟨1, exS, Direction.forward⟩ : AdjData).sharedLine ∧
      rec2.direction = (⟨1, exS, Direction.forward⟩ : AdjData).direction.opposite := by
  refine claim_C3_adjacency_symmetry exTiles 0 1 ⟨1, exS, Direction.forward⟩
    ?_ ?_ ?_ ?_ ?_ ?_ rfl
  · intro t ht u hu l hl m hm
    fin_cases ht <;> fin_cases hu <;> fin_cases hl <;> fin_cases hm <;>
      first
        | (intro hf hn; rfl)
        | (intro hf hn; revert hf hn; norm_num [exTile0, exTile1, exS, exT, exU])
  · intro t ht l hl
    fin_cases ht <;> fin_cases hl <;> norm_num [exTile0, exTile1, exS, exT, exU]
  · intro t ht l hl
    fin_cases ht <;> fin_cases hl <;> norm_num [exTile0, exTile1, exS, exT, exU]
  · intro a b ha hb hne
    have ha2 : a < 2 := by simpa [exTiles] using ha
    have hb2 : b < 2 := by simpa [exTiles] using hb
    interval_cases a <;> interval_cases b <;>
      first
        | exact absurd rfl hne
        | norm_num [exTiles, exTile0, exTile1, EPSILON]
  · norm_num [exTiles]
  · rw [exGraph]
    simp

/-! ## Structural lemmas about one batch expansion (alignNeighbors) -/

/-- The indices pushed by one batch expansion are exactly the neighbour
indices of the processed records, in order. -/
theorem alignNeighbors_pushes (i : ℕ) (adj : List AdjData) :
    ∀ tiles, (alignNeighbors i adj tiles).2 = adj.map (·.neighborIndex) := by
  induction adj with
  | nil => intro tiles; simp [alignNeighbors]
  | cons d rest ih => intro tiles; simp [alignNeighbors, ih]

/-- One batch expansion preserves the number of tiles. -/
theorem alignNeighbors_length (i : ℕ) (adj : List AdjData) :
    ∀ tiles, (alignNeighbors i adj tiles).1.length = tiles.length := by
  induction adj with
  | nil => intro tiles; simp [alignNeighbors]
  | cons d rest ih => intro tiles; simp [alignNeighbors, ih]

/-- A tile whose index is hit by no processed record is untouched by one
batch expansion. -/
theorem alignNeighbors_getD_of_not_mem (i : ℕ) (adj : List AdjData) :
    ∀ tiles j, j ∉ adj.map (·.neighborIndex) →
      (alignNeighbors i adj tiles).1.getD j defaultRhomb = tiles.getD j defaultRhomb := by
  induction adj with
  | nil => intro tiles j _; simp [alignNeighbors]
  | cons d rest ih =>
    intro tiles j hj
    simp only [List.map_cons, List.mem_cons, not_or] at hj
    simp only [alignNeighbors]
    rw [ih _ _ (by simpa using hj.2)]
    exact getD_set_ne _ (fun h => hj.1 h.symm) _ _

/-- One batch expansion never clears an aligned flag. -/
theorem alignNeighbors_aligned_mono (i : ℕ) (adj : List AdjData) :
    ∀ tiles j, ((tiles.getD j defaultRhomb).aligned = true) →
      ((alignNeighbors i adj tiles).1.getD j defaultRhomb).aligned = true := by
  induction adj with
  | nil => intro tiles j hj; simpa [alignNeighbors] using hj
  | cons d rest ih =>
    intro tiles j hj
    simp only [alignNeighbors]
    apply ih
    by_cases hd : d.neighborIndex = j
    · subst hd
      by_cases hlt : d.neighborIndex < tiles.length
      · rw [getD_set_self _ _ _ _ hlt]
      · rw [List.set_eq_of_length_le (Nat.le_of_not_lt hlt)]
        exact hj
    · rw [getD_set_ne _ hd]
      exact hj

/-- Every in-range tile hit by a processed record is aligned after one
batch expansion. -/
theorem alignNeighbors_aligned_of_mem (i : ℕ) (adj : List AdjData) :
    ∀ tiles j, j < tiles.length → j ∈ adj.map (·.neighborIndex) →
      ((alignNeighbors i adj tiles).1.getD j defaultRhomb).aligned = true := by
  induction adj with
  | nil => intro tiles j _ hj; simp at hj
  | cons d rest ih =>
    intro tiles j hlt hj
    rcases List.mem_cons.mp hj with hj | hj
    · have hj' : j = d.neighborIndex := hj
      subst hj'
      by_cases hin : d.neighborIndex ∈ rest.map (·.neighborIndex)
      · simp only [alignNeighbors]
        exact ih _ _ (by rwa [List.length_set]) hin
      · simp only [alignNeighbors]
        rw [alignNeighbors_getD_of_not_mem _ _ _ _ hin]
        rw [getD_set_self _ _ _ _ hlt]
    · simp only [alignNeighbors]
      exact ih _ _ (by rwa [List.length_set]) hj

/-- A tile aligned after one batch expansion was already aligned or was
hit by a processed record. -/
theorem alignNeighbors_aligned_cases (i : ℕ) (adj : List AdjData) (tiles : List Rhomb) (j : ℕ)
    (h : ((alignNeighbors i adj tiles).1.getD j defaultRhomb).aligned = true) :
    (tiles.getD j defaultRhomb).aligned = true ∨ j ∈ adj.map (·.neighborIndex) := by
  by_cases hin : j ∈ adj.map (·.neighborIndex)
  · exact Or.inr hin
  · left
    rwa [alignNeighbors_getD_of_not_mem _ _ _ _ hin] at h

/-- One batch expansion changes neither the locked flag nor the original
snapshot nor the originating intersection of any tile. -/
theorem alignNeighbors_preserves (i : ℕ) (adj : List AdjData) :
    ∀ tiles j,
      ((alignNeighbors i adj tiles).1.getD j defaultRhomb).locked
          = (tiles.getD j defaultRhomb).locked ∧
      ((alignNeighbors i adj tiles).1.getD j defaultRhomb).originalPoints
          = (tiles.getD j defaultRhomb).originalPoints ∧
      ((alignNeighbors i adj tiles).1.getD j defaultRhomb).intersection
          = (tiles.getD j defaultRhomb).intersection := by
  induction adj with
  | nil => intro tiles j; simp [alignNeighbors]
  | cons d rest ih =>
    intro tiles j
    simp only [alignNeighbors]
    have hstep :
        ((tiles.set d.neighborIndex
            { realignRhombus (tiles.getD d.neighborIndex defaultRhomb)
                (calculateAlignmentOffset (tiles.getD i defaultRhomb)
                  (tiles.getD d.neighborIndex defaultRhomb) d.sharedLine d.direction) with
              aligned := true }).getD j defaultRhomb).locked
            = (tiles.getD j defaultRhomb).locked ∧
        ((tiles.set d.neighborIndex
            { realignRhombus (tiles.getD d.neighborIndex defaultRhomb)
                (calculateAlignmentOffset (tiles.getD i defaultRhomb)
                  (tiles.getD d.neighborIndex defaultRhomb) d.sharedLine d.direction) with
              aligned := true }).getD j defaultRhomb).originalPoints
            = (tiles.getD j defaultRhomb).originalPoints ∧
        ((tiles.set d.neighborIndex
            { realignRhombus (tiles.getD d.neighborIndex defaultRhomb)
                (calculateAlignmentOffset (tiles.getD i defaultRhomb)
                  (tiles.getD d.neighborIndex defaultRhomb) d.sharedLine d.direction) with
              aligned := true }).getD j defaultRhomb).intersection
            = (tiles.getD j defaultRhomb).intersection := by
      by_cases hd : d.neighborIndex = j
      · subst hd
        by_cases hlt : d.neighborIndex < tiles.length
        · rw [getD_set_self _ _ _ _ hlt]
          exact ⟨rfl, rfl, rfl⟩
        · rw [List.set_eq_of_length_le (Nat.le_of_not_lt hlt)]
          exact ⟨rfl, rfl, rfl⟩
      · rw [getD_set_ne _ hd]
        exact ⟨rfl, rfl, rfl⟩
    refine ⟨?_, ?_, ?_⟩
    · rw [(ih _ _).1, hstep.1]
    · rw [(ih _ _).2.1, hstep.2.1]
    · rw [(ih _ _).2.2, hstep.2.2]

/-! ## Invariants of the batch breadth-first loop (alignLoop) -/

/-- Unfolding equation: the loop on an empty queue returns the tiles. -/
theorem alignLoop_nil (g : List (List AdjData)) (tiles : List Rhomb) :
    alignLoop g tiles [] = tiles := by
  unfold alignLoop
  rfl

/-- Unfolding equation: the loop pops the front tile, expands it, and
continues with the updated tiles and queue. -/
theorem alignLoop_cons (g : List (List AdjData)) (tiles : List Rhomb) (i : ℕ) (rest : List ℕ) :
    alignLoop g tiles (i :: rest) =
      alignLoop g
        (alignNeighbors i (getUnalignedAdjacentTiles g tiles i) tiles).1
        (rest ++ (alignNeighbors i (getUnalignedAdjacentTiles g tiles i) tiles).2) := by
  conv_lhs => unfold alignLoop

/-- The batch loop preserves the number of tiles. -/
theorem alignLoop_length (g : List (List AdjData)) (tiles : List Rhomb) (queue : List ℕ) :
    (alignLoop g tiles queue).length = tiles.length := by
  induction tiles, queue using alignLoop.induct g with
  | case1 t => rw [alignLoop_nil]
  | case2 t i rest ih =>
    rw [alignLoop_cons, ih, alignNeighbors_length]

/-- The batch loop never clears an aligned flag. -/
theorem alignLoop_aligned_mono (g : List (List AdjData)) (tiles : List Rhomb) (queue : List ℕ) :
    ∀ j, (tiles.getD j defaultRhomb).aligned = true →
      ((alignLoop g tiles queue).getD j defaultRhomb).aligned = true := by
  induction tiles, queue using alignLoop.induct g with
  | case1 t => intro j hj; rwa [alignLoop_nil]
  | case2 t i rest ih =>
    intro j hj
    rw [alignLoop_cons]
    exact ih j (alignNeighbors_aligned_mono _ _ _ _ hj)

/-- Frame property of the batch loop: take any set S of tile indices that
contains the whole queue and is closed under graph adjacency; every tile
outside S is left completely untouched by the loop. -/
theorem alignLoop_untouched (g : List (List AdjData)) (S : ℕ → Prop)
    (hclosed : ∀ i d, S i → d ∈ g.getD i [] → S d.neighborIndex) :
    ∀ (tiles : List Rhomb) (queue : List ℕ), (∀ k ∈ queue, S k) →
      ∀ j, ¬S j → (alignLoop g tiles queue).getD j defaultRhomb = tiles.getD j defaultRhomb := by
  intro tiles queue
  induction tiles, queue using alignLoop.induct g with
  | case1 t => intro _ j _; rw [alignLoop_nil]
  | case2 t i rest ih =>
    intro hq j hj
    have hSi : S i := hq i (List.mem_cons_self i rest)
    have hadjS : ∀ k, k ∈ (getUnalignedAdjacentTiles g t i).map (·.neighborIndex) → S k := by
      intro k hk
      rcases List.mem_map.mp hk with ⟨d, hd, rfl⟩
      exact hclosed i d hSi (List.mem_of_mem_filter hd)
    rw [alignLoop_cons]
    rw [ih ?_ j hj]
    · exact alignNeighbors_getD_of_not_mem _ _ _ _ (fun hmem => hj (hadjS j hmem))
    · intro k hk
      rcases List.mem_append.mp hk with hk | hk
      · exact hq k (List.mem_cons_of_mem _ hk)
      · rw [alignNeighbors_pushes] at hk
        exact hadjS k hk

/-- Soundness of the batch loop: with S closed under adjacency, containing
the queue and every initially aligned in-range tile, every tile aligned at
the end is in S. -/
theorem alignLoop_aligned_subset (g : List (List AdjData)) (S : ℕ → Prop)
    (hclosed : ∀ i d, S i → d ∈ g.getD i [] → S d.neighborIndex) :
    ∀ (tiles : List Rhomb) (queue : List ℕ), (∀ k ∈ queue, S k) →
      (∀ j, j < tiles.length → (tiles.getD j defaultRhomb).aligned = true → S j) →
      ∀ j, j < tiles.length →
        ((alignLoop g tiles queue).getD j defaultRhomb).aligned = true → S j := by
  intro tiles queue
  induction tiles, queue using alignLoop.induct g with
  | case1 t =>
    intro _ hal j hlt hj
    rw [alignLoop_nil] at hj
    exact hal j hlt hj
  | case2 t i rest ih =>
    intro hq hal j hlt hj
    have hSi : S i := hq i (List.mem_cons_self i rest)
    have hadjS : ∀ k, k ∈ (getUnalignedAdjacentTiles g t i).map (·.neighborIndex) → S k := by
      intro k hk
      rcases List.mem_map.mp hk with ⟨d, hd, rfl⟩
      exact hclosed i d hSi (List.mem_of_mem_filter hd)
    rw [alignLoop_cons] at hj
    refine ih ?_ ?_ j (by rwa [alignNeighbors_length]) hj
    · intro k hk
      rcases List.mem_append.mp hk with hk | hk
      · exact hq k (List.mem_cons_of_mem _ hk)
      · rw [alignNeighbors_pushes] at hk
        exact hadjS k hk
    · intro k hk hkal
      rcases alignNeighbors_aligned_cases _ _ _ _ hkal with hold | hmem
      · exact hal k (by rwa [alignNeighbors_length] at hk) hold
      · exact hadjS k hmem

/-- Closure of the batch loop: if every aligned tile is either still in
the queue or has all its graph neighbours aligned, then at the end every
aligned tile has all its graph neighbours aligned. -/
theorem alignLoop_closure (g : List (List AdjData)) :
    ∀ (tiles : List Rhomb) (queue : List ℕ),
      (∀ i, i < tiles.length → (tiles.getD i defaultRhomb).aligned = true →
        (i ∈ queue ∨ ∀ d ∈ g.getD i [], (tiles.getD d.neighborIndex defaultRhomb).aligned = true)) →
      ∀ i, i < tiles.length → ((alignLoop g tiles queue).getD i defaultRhomb).aligned = true →
        ∀ d ∈ g.getD i [],
          ((alignLoop g tiles queue).getD d.neighborIndex defaultRhomb).aligned = true := by
  intro tiles queue
  induction tiles, queue using alignLoop.induct g with
  | case1 t =>
    intro hinv i hlt hal d hd
    rw [alignLoop_nil] at hal ⊢
    rcases hinv i hlt hal with h | h
    · simp at h
    · exact h d hd
  | case2 t i0 rest ih =>
    intro hinv i hlt hal d hd
    rw [alignLoop_cons] at hal ⊢
    refine ih ?_ i (by rwa [alignNeighbors_length]) hal d hd
    intro k hk hkal
    have hk' : k < t.length := by rwa [alignNeighbors_length] at hk
    by_cases hk0 : k = i0
    · subst hk0
      right
      intro e he
      cases hev : (t.getD e.neighborIndex defaultRhomb).aligned with
      | true => exact alignNeighbors_aligned_mono _ _ _ _ hev
      | false =>
        have hmem : e ∈ getUnalignedAdjacentTiles g t k := by
          unfold getUnalignedAdjacentTiles
          rw [List.mem_filter]
          refine ⟨he, ?_⟩
          rw [hev]
          rfl
        have hbound : e.neighborIndex < t.length := lt_length_of_unaligned hev
        exact alignNeighbors_aligned_of_mem _ _ _ _ hbound
          (List.mem_map.mpr ⟨e, hmem, rfl⟩)
    · rcases alignNeighbors_aligned_cases _ _ _ _ hkal with hold | hmem
      · rcases hinv k hk' hold with hmemq | hcl
        · rcases List.mem_cons.mp hmemq with h | h
          · exact absurd h hk0
          · exact Or.inl (List.mem_append_left _ h)
        · right
          intro e he
          exact alignNeighbors_aligned_mono _ _ _ _ (hcl e he)
      · left
        apply List.mem_append_right
        rwa [alignNeighbors_pushes]

/-! ## Per-frame facts about stepAlignment -/

/-- Unfolding equation: a step on an empty queue does nothing. -/
theorem stepAlignment_nil (g : List (List AdjData)) (tiles : List Rhomb) :
    stepAlignment g ⟨tiles, []⟩ = ⟨tiles, []⟩ := rfl

/-- Unfolding equation: a popped tile with no unaligned neighbours is
simply dropped from the queue. -/
theorem stepAlignment_cons_nil (g : List (List AdjData)) (tiles : List Rhomb) (i : ℕ)
    (rest : List ℕ) (hadj : getUnalignedAdjacentTiles g tiles i = []) :
    stepAlignment g ⟨tiles, i :: rest⟩ = ⟨tiles, rest⟩ := by
  simp only [stepAlignment, hadj]

/-- Unfolding equation: with at least one unaligned neighbour, only the
first one is realigned (unless locked) and marked, it is pushed at the
back, and the popped tile is re-enqueued at the front once per remaining
neighbour. -/
theorem stepAlignment_cons_cons (g : List (List AdjData)) (tiles : List Rhomb) (i : ℕ)
    (rest : List ℕ) (d : AdjData) (ds : List AdjData)
    (hadj : getUnalignedAdjacentTiles g tiles i = d :: ds) :
    stepAlignment g ⟨tiles, i :: rest⟩ =
      ⟨(if (tiles.getD d.neighborIndex defaultRhomb).locked then tiles
          else tiles.set d.neighborIndex
            (realignRhombus (tiles.getD d.neighborIndex defaultRhomb)
              (calculateAlignmentOffset (tiles.getD i defaultRhomb)
                (tiles.getD d.neighborIndex defaultRhomb) d.sharedLine d.direction))).set
          d.neighborIndex
          { (if (tiles.getD d.neighborIndex defaultRhomb).locked then tiles
              else tiles.set d.neighborIndex
                (realignRhombus (tiles.getD d.neighborIndex defaultRhomb)
                  (calculateAlignmentOffset (tiles.getD i defaultRhomb)
                    (tiles.getD d.neighborIndex defaultRhomb) d.sharedLine
                    d.direction))).getD d.neighborIndex defaultRhomb with
            aligned := true },
        List.replicate ds.length i ++ rest ++ [d.neighborIndex]⟩ := by
  simp only [stepAlignment, hadj]

/-- Combined specification of one productive step: number of tiles kept,
only the first unaligned neighbour touched, that neighbour marked aligned
with locked flag, snapshot and intersection unchanged, its vertices
unchanged when it is locked, and the stated queue shape. -/
theorem stepAlignment_spec (g : List (List AdjData)) (tiles : List Rhomb) (i : ℕ)
    (rest : List ℕ) (d : AdjData) (ds : List AdjData)
    (hadj : getUnalignedAdjacentTiles g tiles i = d :: ds) :
    (stepAlignment g ⟨tiles, i :: rest⟩).tiles.length = tiles.length ∧
    (∀ j, j ≠ d.neighborIndex →
      (stepAlignment g ⟨tiles, i :: rest⟩).tiles.getD j defaultRhomb
        = tiles.getD j defaultRhomb) ∧
    ((stepAlignment g ⟨tiles, i :: rest⟩).tiles.getD d.neighborIndex defaultRhomb).aligned
      = true ∧
    ((stepAlignment g ⟨tiles, i :: rest⟩).tiles.getD d.neighborIndex defaultRhomb).locked
      = (tiles.getD d.neighborIndex defaultRhomb).locked ∧
    ((stepAlignment g ⟨tiles, i :: rest⟩).tiles.getD d.neighborIndex defaultRhomb).originalPoints
      = (tiles.getD d.neighborIndex defaultRhomb).originalPoints ∧
    ((stepAlignment g ⟨tiles, i :: rest⟩).tiles.getD d.neighborIndex defaultRhomb).intersection
      = (tiles.getD d.neighborIndex defaultRhomb).intersection ∧
    ((tiles.getD d.neighborIndex defaultRhomb).locked = true →
      ((stepAlignment g ⟨tiles, i :: rest⟩).tiles.getD d.neighborIndex defaultRhomb).points
        = (tiles.getD d.neighborIndex defaultRhomb).points) ∧
    (stepAlignment g ⟨tiles, i :: rest⟩).queue
      = List.replicate ds.length i ++ rest ++ [d.neighborIndex] := by
  have hd0 : (tiles.getD d.neighborIndex defaultRhomb).aligned = false :=
    mem_getUnalignedAdjacentTiles (hadj ▸ List.mem_cons_self d ds)
  have hlt : d.neighborIndex < tiles.length := lt_length_of_unaligned hd0
  rw [stepAlignment_cons_cons g tiles i rest d ds hadj]
  by_cases hl : (tiles.getD d.neighborIndex defaultRhomb).locked = true
  · simp only [hl, if_true]
    have hlt2 : d.neighborIndex < tiles.length := hlt
    refine ⟨by simp, ?_, ?_, ?_, ?_, ?_, ?_, by trivial⟩
    · intro j hj
      exact getD_set_ne _ (fun h => hj h.symm) _ _
    · rw [getD_set_self _ _ _ _ hlt2]
    · rw [getD_set_self _ _ _ _ hlt2]
    · rw [getD_set_self _ _ _ _ hlt2]
    · rw [getD_set_self _ _ _ _ hlt2]
    · intro _
      rw [getD_set_self _ _ _ _ hlt2]
  · simp only [hl, Bool.false_eq_true, if_false]
    have hlen1 : (tiles.set d.neighborIndex
        (realignRhombus (tiles.getD d.neighborIndex defaultRhomb)
          (calculateAlignmentOffset (tiles.getD i defaultRhomb)
            (tiles.getD d.neighborIndex defaultRhomb) d.sharedLine
            d.direction))).length = tiles.length := by simp
    have hlt1 : d.neighborIndex < (tiles.set d.neighborIndex
        (realignRhombus (tiles.getD d.neighborIndex defaultRhomb)
          (calculateAlignmentOffset (tiles.getD i defaultRhomb)
            (tiles.getD d.neighborIndex defaultRhomb) d.sharedLine
            d.direction))).length := by rwa [hlen1]
    refine ⟨by simp, ?_, ?_, ?_, ?_, ?_, ?_, by trivial⟩
    · intro j hj
      rw [getD_set_ne _ (fun h => hj h.symm) _ _, getD_set_ne _ (fun h => hj h.symm) _ _]
    · rw [getD_set_self _ _ _ _ hlt1]
    · rw [getD_set_self _ _ _ _ hlt1, getD_set_self _ _ _ _ hlt]
      rw [Bool.not_eq_true] at hl
      exact hl
    · rw [getD_set_self _ _ _ _ hlt1, getD_set_self _ _ _ _ hlt]
      rfl
    · rw [getD_set_self _ _ _ _ hlt1, getD_set_self _ _ _ _ hlt]
      rfl
    · intro hcontra
      exact absurd hcontra (by simp)

/-- One step preserves the number of tiles. -/
theorem stepAlignment_length (g : List (List AdjData)) (s : AlignState) :
    (stepAlignment g s).tiles.length = s.tiles.length := by
  rcases s with ⟨tiles, queue⟩
  rcases queue with _ | ⟨i, rest⟩
  · rfl
  rcases hadj : getUnalignedAdjacentTiles g tiles i with _ | ⟨d, ds⟩
  · rw [stepAlignment_cons_nil g tiles i rest hadj]
  · exact (stepAlignment_spec g tiles i rest d ds hadj).1

/-- One step never clears an aligned flag. -/
theorem stepAlignment_aligned_mono (g : List (List AdjData)) (s : AlignState) (j : ℕ)
    (hj : (s.tiles.getD j defaultRhomb).aligned = true) :
    ((stepAlignment g s).tiles.getD j defaultRhomb).aligned = true := by
  rcases s with ⟨tiles, queue⟩
  rcases queue with _ | ⟨i, rest⟩
  · exact hj
  rcases hadj : getUnalignedAdjacentTiles g tiles i with _ | ⟨d, ds⟩
  · rw [stepAlignment_cons_nil g tiles i rest hadj]
    exact hj
  · by_cases he : j = d.neighborIndex
    · subst he
      exact (stepAlignment_spec g tiles i rest d ds hadj).2.2.1
    · rw [(stepAlignment_spec g tiles i rest d ds hadj).2.1 j he]
      exact hj

/-- One step changes no locked flag, no original snapshot and no
originating intersection. -/
theorem stepAlignment_preserves (g : List (List AdjData)) (s : AlignState) (j : ℕ) :
    ((stepAlignment g s).tiles.getD j defaultRhomb).locked
        = (s.tiles.getD j defaultRhomb).locked ∧
    ((stepAlignment g s).tiles.getD j defaultRhomb).originalPoints
        = (s.tiles.getD j defaultRhomb).originalPoints ∧
    ((stepAlignment g s).tiles.getD j defaultRhomb).intersection
        = (s.tiles.getD j defaultRhomb).intersection := by
  rcases s with ⟨tiles, queue⟩
  rcases queue with _ | ⟨i, rest⟩
  · exact ⟨rfl, rfl, rfl⟩
  rcases hadj : getUnalignedAdjacentTiles g tiles i with _ | ⟨d, ds⟩
  · rw [stepAlignment_cons_nil g tiles i rest hadj]
    exact ⟨rfl, rfl, rfl⟩
  · by_cases he : j = d.neighborIndex
    · subst he
      have hspec := stepAlignment_spec g tiles i rest d ds hadj
      exact ⟨hspec.2.2.2.1, hspec.2.2.2.2.1, hspec.2.2.2.2.2.1⟩
    · rw [(stepAlignment_spec g tiles i rest d ds hadj).2.1 j he]
      exact ⟨rfl, rfl, rfl⟩

/-- One step never moves the vertices of a locked tile. -/
theorem stepAlignment_locked_points (g : List (List AdjData)) (s : AlignState) (j : ℕ)
    (hl : (s.tiles.getD j defaultRhomb).locked = true) :
    ((stepAlignment g s).tiles.getD j defaultRhomb).points
        = (s.tiles.getD j defaultRhomb).points := by
  rcases s with ⟨tiles, queue⟩
  rcases queue with _ | ⟨i, rest⟩
  · rfl
  rcases hadj : getUnalignedAdjacentTiles g tiles i with _ | ⟨d, ds⟩
  · rw [stepAlignment_cons_nil g tiles i rest hadj]
  · by_cases he : j = d.neighborIndex
    · subst he
      exact (stepAlignment_spec g tiles i rest d ds hadj).2.2.2.2.2.2.1 hl
    · rw [(stepAlignment_spec g tiles i rest d ds hadj).2.1 j he]

/-! ## Invariants of the iterated single-step loop (runStepAlignment) -/

/-- Unfolding equation: the run on an empty queue returns the state. -/
theorem runStepAlignment_nil (g : List (List AdjData)) (s : AlignState)
    (h : s.queue = []) : runStepAlignment g s = s := by
  unfold runStepAlignment
  simp [h]

/-- Unfolding equation: the run on a nonempty queue takes one step and
continues. -/
theorem runStepAlignment_cons (g : List (List AdjData)) (s : AlignState)
    (h : s.queue ≠ []) : runStepAlignment g s = runStepAlignment g (stepAlignment g s) := by
  conv_lhs => unfold runStepAlignment
  simp [h]

/-- The iterated single-step loop ends with an empty queue. -/
theorem runStepAlignment_queue (g : List (List AdjData)) (s : AlignState) :
    (runStepAlignment g s).queue = [] := by
  induction s using runStepAlignment.induct g with
  | case1 s h => rw [runStepAlignment_nil g s h]; exact h
  | case2 s h ih => rw [runStepAlignment_cons g s h]; exact ih

/-- The iterated single-step loop preserves the number of tiles. -/
theorem runStepAlignment_length (g : List (List AdjData)) (s : AlignState) :
    (runStepAlignment g s).tiles.length = s.tiles.length := by
  induction s using runStepAlignment.induct g with
  | case1 s h => rw [runStepAlignment_nil g s h]
  | case2 s h ih =>
    rw [runStepAlignment_cons g s h, ih, stepAlignment_length]

/-- The iterated single-step loop never clears an aligned flag. -/
theorem runStepAlignment_aligned_mono (g : List (List AdjData)) (s : AlignState) :
    ∀ j, (s.tiles.getD j defaultRhomb).aligned = true →
      ((runStepAlignment g s).tiles.getD j defaultRhomb).aligned = true := by
  induction s using runStepAlignment.induct g with
  | case1 s h => intro j hj; rwa [runStepAlignment_nil g s h]
  | case2 s h ih =>
    intro j hj
    rw [runStepAlignment_cons g s h]
    exact ih j (stepAlignment_aligned_mono g s j hj)

/-- The iterated single-step loop changes no locked flag, no original
snapshot and no originating intersection. -/
theorem runStepAlignment_preserves (g : List (List AdjData)) (s : AlignState) :
    ∀ j, ((runStepAlignment g s).tiles.getD j defaultRhomb).locked
        = (s.tiles.getD j defaultRhomb).locked ∧
      ((runStepAlignment g s).tiles.getD j defaultRhomb).originalPoints
        = (s.tiles.getD j defaultRhomb).originalPoints ∧
      ((runStepAlignment g s).tiles.getD j defaultRhomb).intersection
        = (s.tiles.getD j defaultRhomb).intersection := by
  induction s using runStepAlignment.induct g with
  | case1 s h => intro j; rw [runStepAlignment_nil g s h]; exact ⟨rfl, rfl, rfl⟩
  | case2 s h ih =>
    intro j
    rw [runStepAlignment_cons g s h]
    have h1 := ih j
    have h2 := stepAlignment_preserves g s j
    exact ⟨h1.1.trans h2.1, h1.2.1.trans h2.2.1, h1.2.2.trans h2.2.2⟩

/-- The iterated single-step loop never moves the vertices of a locked
tile. -/
theorem runStepAlignment_locked_points (g : List (List AdjData)) (s : AlignState) :
    ∀ j, (s.tiles.getD j defaultRhomb).locked = true →
      ((runStepAlignment g s).tiles.getD j defaultRhomb).points
        = (s.tiles.getD j defaultRhomb).points := by
  induction s using runStepAlignment.induct g with
  | case1 s h => intro j _; rw [runStepAlignment_nil g s h]
  | case2 s h ih =>
    intro j hl
    rw [runStepAlignment_cons g s h]
    have hl' : ((stepAlignment g s).tiles.getD j defaultRhomb).locked = true := by
      rw [(stepAlignment_preserves g s j).1]
      exact hl
    rw [ih j hl', stepAlignment_locked_points g s j hl]

/-- Frame property of the single-step loop: with S closed under adjacency
and containing the queue, every tile outside S is untouched. -/
theorem runStepAlignment_untouched (g : List (List AdjData)) (S : ℕ → Prop)
    (hclosed : ∀ i d, S i → d ∈ g.getD i [] → S d.neighborIndex) :
    ∀ s : AlignState, (∀ k ∈ s.queue, S k) → ∀ j, ¬S j →
      (runStepAlignment g s).tiles.getD j defaultRhomb = s.tiles.getD j defaultRhomb := by
  intro s
  induction s using runStepAlignment.induct g with
  | case1 s h => intro _ j _; rw [runStepAlignment_nil g s h]
  | case2 s h ih =>
    intro hq j hj
    rw [runStepAlignment_cons g s h]
    rcases s with ⟨tiles, queue⟩
    rcases queue with _ | ⟨i, rest⟩
    · simp at h
    have hSi : S i := hq i (List.mem_cons_self i rest)
    rcases hadj : getUnalignedAdjacentTiles g tiles i with _ | ⟨d, ds⟩
    · rw [stepAlignment_cons_nil g tiles i rest hadj] at ih ⊢
      exact ih (fun k hk => hq k (List.mem_cons_of_mem _ hk)) j hj
    · have hdg : d ∈ g.getD i [] :=
        List.mem_of_mem_filter (hadj ▸ List.mem_cons_self d ds)
      have hSnb : S d.neighborIndex := hclosed i d hSi hdg
      have hspec := stepAlignment_spec g tiles i rest d ds hadj
      have hq' : ∀ k ∈ (stepAlignment g ⟨tiles, i :: rest⟩).queue, S k := by
        rw [hspec.2.2.2.2.2.2.2]
        intro k hk
        rcases List.mem_append.mp hk with hk | hk
        · rcases List.mem_append.mp hk with hk | hk
          · rw [List.eq_of_mem_replicate hk]
            exact hSi
          · exact hq k (List.mem_cons_of_mem _ hk)
        · rw [List.mem_singleton.mp hk]
          exact hSnb
      rw [ih hq' j hj]
      exact hspec.2.1 j (fun he => hj (he ▸ hSnb))

/-- Soundness of the single-step loop: with S closed under adjacency,
containing the queue and every initially aligned in-range tile, every tile
aligned at the end is in S. -/
theorem runStepAlignment_aligned_subset (g : List (List AdjData)) (S : ℕ → Prop)
    (hclosed : ∀ i d, S i → d ∈ g.getD i [] → S d.neighborIndex) :
    ∀ s : AlignState, (∀ k ∈ s.queue, S k) →
      (∀ j, j < s.tiles.length → (s.tiles.getD j defaultRhomb).aligned = true → S j) →
      ∀ j, j < s.tiles.length →
        ((runStepAlignment g s).tiles.getD j defaultRhomb).aligned = true → S j := by
  intro s
  induction s using runStepAlignment.induct g with
  | case1 s h =>
    intro _ hal j hlt hj
    rw [runStepAlignment_nil g s h] at hj
    exact hal j hlt hj
  | case2 s h ih =>
    intro hq hal j hlt hj
    rw [runStepAlignment_cons g s h] at hj
    rcases s with ⟨tiles, queue⟩
    rcases queue with _ | ⟨i, rest⟩
    · simp at h
    have hSi : S i := hq i (List.mem_cons_self i rest)
    rcases hadj : getUnalignedAdjacentTiles g tiles i with _ | ⟨d, ds⟩
    · rw [stepAlignment_cons_nil g tiles i rest hadj] at ih hj
      exact ih (fun k hk => hq k (List.mem_cons_of_mem _ hk)) hal j hlt hj
    · have hdg : d ∈ g.getD i [] :=
        List.mem_of_mem_filter (hadj ▸ List.mem_cons_self d ds)
      have hSnb : S d.neighborIndex := hclosed i d hSi hdg
      have hspec := stepAlignment_spec g tiles i rest d ds hadj
      have hq' : ∀ k ∈ (stepAlignment g ⟨tiles, i :: rest⟩).queue, S k := by
        rw [hspec.2.2.2.2.2.2.2]
        intro k hk
        rcases List.mem_append.mp hk with hk | hk
        · rcases List.mem_append.mp hk with hk | hk
          · rw [List.eq_of_mem_replicate hk]
            exact hSi
          · exact hq k (List.mem_cons_of_mem _ hk)
        · rw [List.mem_singleton.mp hk]
          exact hSnb
      have hal' : ∀ k, k < (stepAlignment g ⟨tiles, i :: rest⟩).tiles.length →
          ((stepAlignment g ⟨tiles, i :: rest⟩).tiles.getD k defaultRhomb).aligned = true →
          S k := by
        intro k hk hkal
        by_cases he : k = d.neighborIndex
        · exact he ▸ hSnb
        · rw [hspec.2.1 k he] at hkal
          exact hal k (by rw [← hspec.1]; exact hk) hkal
      exact ih hq' hal' j (by rwa [stepAlignment_length]) hj

/-- Closure of the single-step loop: if every aligned tile is either still
in the queue or has all its graph neighbours aligned, then at the end
every aligned tile has all its graph neighbours aligned. -/
theorem runStepAlignment_closure (g : List (List AdjData)) :
    ∀ s : AlignState,
      (∀ i, i < s.tiles.length → (s.tiles.getD i defaultRhomb).aligned = true →
        (i ∈ s.queue ∨ ∀ d ∈ g.getD i [],
          (s.tiles.getD d.neighborIndex defaultRhomb).aligned = true)) →
      ∀ i, i < s.tiles.length →
        ((runStepAlignment g s).tiles.getD i defaultRhomb).aligned = true →
        ∀ d ∈ g.getD i [],
          ((runStepAlignment g s).tiles.getD d.neighborIndex defaultRhomb).aligned = true := by
  intro s
  induction s using runStepAlignment.induct g with
  | case1 s h =>
    intro hinv i hlt hal d hd
    rw [runStepAlignment_nil g s h] at hal ⊢
    rcases hinv i hlt hal with hq | hcl
    · rw [h] at hq
      simp at hq
    · exact hcl d hd
  | case2 s h ih =>
    intro hinv i hlt hal d hd
    rw [runStepAlignment_cons g s h] at hal ⊢
    rcases s with ⟨tiles, queue⟩
    rcases queue with _ | ⟨i0, rest⟩
    · simp at h
    rcases hadj : getUnalignedAdjacentTiles g tiles i0 with _ | ⟨d0, ds0⟩
    · rw [stepAlignment_cons_nil g tiles i0 rest hadj] at ih hal ⊢
      refine ih ?_ i hlt hal d hd
      intro k hk hkal
      rcases hinv k hk hkal with hq | hcl
      · rcases List.mem_cons.mp hq with hq | hq
        · subst hq
          right
          intro e he
          cases hev : (tiles.getD e.neighborIndex defaultRhomb).aligned with
          | true => rfl
          | false =>
            exfalso
            have hmem : e ∈ getUnalignedAdjacentTiles g tiles k := by
              unfold getUnalignedAdjacentTiles
              rw [List.mem_filter]
              refine ⟨he, ?_⟩
              rw [hev]
              rfl
            rw [hadj] at hmem
            simp at hmem
        · exact Or.inl hq
      · exact Or.inr hcl
    · have hspec := stepAlignment_spec g tiles i0 rest d0 ds0 hadj
      refine ih ?_ i (by rwa [stepAlignment_length]) hal d hd
      intro k hk hkal
      have hk' : k < tiles.length := by rwa [stepAlignment_length] at hk
      by_cases hki0 : k = i0
      · subst hki0
        cases hds0 : ds0 with
        | nil =>
          right
          intro e he
          cases hev : (tiles.getD e.neighborIndex defaultRhomb).aligned with
          | true =>
            by_cases hee : e.neighborIndex = d0.neighborIndex
            · rw [hee]
              exact hspec.2.2.1
            · rw [hspec.2.1 e.neighborIndex hee]
              exact hev
          | false =>
            have hmem : e ∈ getUnalignedAdjacentTiles g tiles k := by
              unfold getUnalignedAdjacentTiles
              rw [List.mem_filter]
              refine ⟨he, ?_⟩
              rw [hev]
              rfl
            rw [hadj, hds0] at hmem
            have he0 : e = d0 := by simpa using hmem
            subst he0
            exact hspec.2.2.1
        | cons e0 es0 =>
          left
          rw [hspec.2.2.2.2.2.2.2, hds0]
          apply List.mem_append_left
          apply List.mem_append_left
          exact List.mem_replicate.mpr ⟨by simp, rfl⟩
      · by_cases hknb : k = d0.neighborIndex
        · left
          rw [hspec.2.2.2.2.2.2.2, hknb]
          apply List.mem_append_right
          simp
        · rw [hspec.2.1 k hknb] at hkal
          rcases hinv k hk' hkal with hq | hcl
          · rcases List.mem_cons.mp hq with hq | hq
            · exact absurd hq hki0
            · left
              rw [hspec.2.2.2.2.2.2.2]
              apply List.mem_append_left
              exact List.mem_append_right _ hq
          · right
            intro e he
            by_cases hee : e.neighborIndex = d0.neighborIndex
            · rw [hee]
              exact hspec.2.2.1
            · rw [hspec.2.1 e.neighborIndex hee]
              exact hcl e he

/-- Reachable indices are in range when the seeds are and the graph only
points into range. -/
theorem Reach.lt_length {g : List (List AdjData)} {seeds : List ℕ} {n : ℕ}
    (hg : ∀ i, ∀ d ∈ g.getD i [], d.neighborIndex < n)
    (hseeds : ∀ k ∈ seeds, k < n) {j : ℕ} (h : Reach g seeds j) : j < n := by
  induction h with
  | seed hk => exact hseeds _ hk
  | step _ hd _ => exact hg _ _ hd

/-! ## Claim theorems: alignment engine -/

/-- Claim C1: both alignment runs terminate (they are total functions and
the single-step run ends with an empty queue), and afterwards the aligned
tiles are exactly those reachable from the seed set through the adjacency
graph, while tiles of a disconnected component keep aligned = false and
all their fields (vertices included) unchanged.  The batch run
alignRhombuses seeds tile 0; the iterated single-step run is stated for an
arbitrary seed queue whose members are exactly the initially aligned
tiles. -/
theorem claim_C1_alignment_coverage (g : List (List AdjData)) (tiles : List Rhomb)
    (hg : ∀ i, ∀ d ∈ g.getD i [], d.neighborIndex < tiles.length) :
    ((tiles ≠ [] ∧ ∀ t ∈ tiles, t.aligned = false) →
      (∀ j, j < tiles.length →
        (((alignRhombuses tiles g).getD j defaultRhomb).aligned = true ↔ Reach g [0] j)) ∧
      (∀ j, j < tiles.length → ¬Reach g [0] j →
        (alignRhombuses tiles g).getD j defaultRhomb = tiles.getD j defaultRhomb)) ∧
    (∀ seeds : List ℕ, (∀ k ∈ seeds, k < tiles.length) →
      (∀ j, j < tiles.length → ((tiles.getD j defaultRhomb).aligned = true ↔ j ∈ seeds)) →
      (runStepAlignment g ⟨tiles, seeds⟩).queue = [] ∧
      (∀ j, j < tiles.length →
        (((runStepAlignment g ⟨tiles, seeds⟩).tiles.getD j defaultRhomb).aligned = true ↔
          Reach g seeds j)) ∧
      (∀ j, j < tiles.length → ¬Reach g seeds j →
        (runStepAlignment g ⟨tiles, seeds⟩).tiles.getD j defaultRhomb
          = tiles.getD j defaultRhomb)) := by
  constructor
  · rintro ⟨hne, hun⟩
    have hlen0 : 0 < tiles.length := List.length_pos.mpr hne
    have hlenne : ¬tiles.length = 0 := by omega
    have hbatch : alignRhombuses tiles g =
        alignLoop g (tiles.set 0 { tiles.getD 0 defaultRhomb with aligned := true }) [0] := by
      unfold alignRhombuses
      rw [if_neg hlenne]
    set tiles0 := tiles.set 0 { tiles.getD 0 defaultRhomb with aligned := true } with htiles0
    have hlen0' : tiles0.length = tiles.length := by simp [htiles0]
    have hal0 : (tiles0.getD 0 defaultRhomb).aligned = true := by
      rw [htiles0, getD_set_self _ _ _ _ hlen0]
    have hother : ∀ j, j ≠ 0 → tiles0.getD j defaultRhomb = tiles.getD j defaultRhomb := by
      intro j hj
      rw [htiles0, getD_set_ne _ (fun h => hj h.symm)]
    have hunal : ∀ j, j < tiles.length → j ≠ 0 →
        (tiles.getD j defaultRhomb).aligned = false := by
      intro j hj _
      rw [List.getD_eq_getElem tiles defaultRhomb hj]
      exact hun _ (List.getElem_mem hj)
    have hclosed : ∀ i d, Reach g [0] i → d ∈ g.getD i [] → Reach g [0] d.neighborIndex :=
      fun i d hi hd => Reach.step hi hd
    have hreach0 : Reach g [0] 0 := Reach.seed (List.mem_singleton.mpr rfl)
    have hsound : ∀ j, j < tiles.length →
        (((alignRhombuses tiles g).getD j defaultRhomb).aligned = true) → Reach g [0] j := by
      intro j hj hal
      rw [hbatch] at hal
      refine alignLoop_aligned_subset g (Reach g [0]) hclosed tiles0 [0] ?_ ?_ j
        (by rwa [hlen0']) hal
      · intro k hk
        rw [List.mem_singleton.mp hk]
        exact hreach0
      · intro k hk hkal
        by_cases hk0 : k = 0
        · exact hk0 ▸ hreach0
        · rw [hother k hk0] at hkal
          rw [hunal k (by rwa [hlen0'] at hk) hk0] at hkal
          simp at hkal
    have hcompl : ∀ j, Reach g [0] j →
        ((alignRhombuses tiles g).getD j defaultRhomb).aligned = true := by
      have hclosure := alignLoop_closure g tiles0 [0] (by
        intro i hi hial
        by_cases hi0 : i = 0
        · exact Or.inl (hi0 ▸ List.mem_singleton.mpr rfl)
        · rw [hother i hi0] at hial
          rw [hunal i (by rwa [hlen0'] at hi) hi0] at hial
          simp at hial)
      intro j hj
      induction hj with
      | seed hk =>
        rw [hbatch]
        rw [List.mem_singleton.mp hk]
        exact alignLoop_aligned_mono g tiles0 [0] 0 hal0
      | step hi hd ih =>
        rename_i i d
        have hilt : i < tiles.length :=
          Reach.lt_length hg (by intro k hk; rw [List.mem_singleton.mp hk]; exact hlen0) hi
        rw [hbatch] at ih ⊢
        exact hclosure i (by rwa [hlen0']) ih d hd
    refine ⟨fun j hj => ⟨hsound j hj, hcompl j⟩, ?_⟩
    · intro j hj hreach
      have hj0 : j ≠ 0 := fun h => hreach (h ▸ hreach0)
      rw [hbatch]
      rw [alignLoop_untouched g (Reach g [0]) hclosed tiles0 [0]
        (by intro k hk; rw [List.mem_singleton.mp hk]; exact hreach0) j hreach]
      exact hother j hj0
  · intro seeds hseedlt hseedal
    have hclosed : ∀ i d, Reach g seeds i → d ∈ g.getD i [] → Reach g seeds d.neighborIndex :=
      fun i d hi hd => Reach.step hi hd
    have hqS : ∀ k ∈ (⟨tiles, seeds⟩ : AlignState).queue, Reach g seeds k :=
      fun k hk => Reach.seed hk
    refine ⟨runStepAlignment_queue g _, ?_, ?_⟩
    · intro j hj
      constructor
      · intro hal
        exact runStepAlignment_aligned_subset g (Reach g seeds) hclosed ⟨tiles, seeds⟩ hqS
          (fun k hk hkal => Reach.seed ((hseedal k hk).mp hkal)) j hj hal
      · intro hreach
        have hclosure := runStepAlignment_closure g ⟨tiles, seeds⟩ (by
          intro i hi hial
          exact Or.inl ((hseedal i hi).mp hial))
        induction hreach with
        | seed hk =>
          rename_i k
          exact runStepAlignment_aligned_mono g ⟨tiles, seeds⟩ k
            ((hseedal k (hseedlt k hk)).mpr hk)
        | step hi hd ih =>
          rename_i i d
          have hilt : i < tiles.length := Reach.lt_length hg hseedlt hi
          exact hclosure i hilt (ih hilt) d hd
    · intro j hj hreach
      exact runStepAlignment_untouched g (Reach g seeds) hclosed ⟨tiles, seeds⟩ hqS j hreach

/-- One batch expansion preserves the number of vertices of every tile. -/
theorem alignNeighbors_points_length (i : ℕ) (adj : List AdjData) :
    ∀ tiles j, ((alignNeighbors i adj tiles).1.getD j defaultRhomb).points.length
      = (tiles.getD j defaultRhomb).points.length := by
  induction adj with
  | nil => intro tiles j; simp [alignNeighbors]
  | cons d rest ih =>
    intro tiles j
    simp only [alignNeighbors]
    rw [ih]
    by_cases hd : d.neighborIndex = j
    · subst hd
      by_cases hlt : d.neighborIndex < tiles.length
      · rw [getD_set_self _ _ _ _ hlt]
        simp [realignRhombus]
      · rw [List.set_eq_of_length_le (Nat.le_of_not_lt hlt)]
    · rw [getD_set_ne _ hd]

/-- The batch loop changes no locked flag, no original snapshot and no
originating intersection, and keeps every tile's vertex count. -/
theorem alignLoop_preserves (g : List (List AdjData)) (tiles : List Rhomb) (queue : List ℕ) :
    ∀ j, ((alignLoop g tiles queue).getD j defaultRhomb).locked
        = (tiles.getD j defaultRhomb).locked ∧
      ((alignLoop g tiles queue).getD j defaultRhomb).originalPoints
        = (tiles.getD j defaultRhomb).originalPoints ∧
      ((alignLoop g tiles queue).getD j defaultRhomb).intersection
        = (tiles.getD j defaultRhomb).intersection ∧
      ((alignLoop g tiles queue).getD j defaultRhomb).points.length
        = (tiles.getD j defaultRhomb).points.length := by
  induction tiles, queue using alignLoop.induct g with
  | case1 t => intro j; rw [alignLoop_nil]; exact ⟨rfl, rfl, rfl, rfl⟩
  | case2 t i rest ih =>
    intro j
    rw [alignLoop_cons]
    have h1 := ih j
    have h2 := alignNeighbors_preserves i (getUnalignedAdjacentTiles g t i) t j
    have h3 := alignNeighbors_points_length i (getUnalignedAdjacentTiles g t i) t j
    exact ⟨h1.1.trans h2.1, h1.2.1.trans h2.2.1, h1.2.2.1.trans h2.2.2, h1.2.2.2.trans h3⟩

/-- One step of progressive alignment preserves the number of vertices of
every tile. -/
theorem stepAlignment_points_length (g : List (List AdjData)) (s : AlignState) (j : ℕ) :
    ((stepAlignment g s).tiles.getD j defaultRhomb).points.length
      = (s.tiles.getD j defaultRhomb).points.length := by
  rcases s with ⟨tiles, queue⟩
  rcases queue with _ | ⟨i, rest⟩
  · rfl
  rcases hadj : getUnalignedAdjacentTiles g tiles i with _ | ⟨d, ds⟩
  · rw [stepAlignment_cons_nil g tiles i rest hadj]
  by_cases he : j = d.neighborIndex
  · rw [he]
    have hd0 : (tiles.getD d.neighborIndex defaultRhomb).aligned = false :=
      mem_getUnalignedAdjacentTiles (hadj ▸ List.mem_cons_self d ds)
    have hlt : d.neighborIndex < tiles.length := lt_length_of_unaligned hd0
    rw [stepAlignment_cons_cons g tiles i rest d ds hadj]
    by_cases hl : (tiles.getD d.neighborIndex defaultRhomb).locked = true
    · simp only [hl, if_true]
      rw [getD_set_self _ _ _ _ hlt]
    · simp only [hl, Bool.false_eq_true, if_false]
      have hlt1 : d.neighborIndex < (tiles.set d.neighborIndex
          (realignRhombus (tiles.getD d.neighborIndex defaultRhomb)
            (calculateAlignmentOffset (tiles.getD i defaultRhomb)
              (tiles.getD d.neighborIndex defaultRhomb) d.sharedLine d.direction))).length := by
        simpa using hlt
      rw [getD_set_self _ _ _ _ hlt1, getD_set_self _ _ _ _ hlt]
      simp [realignRhombus]
  · rw [(stepAlignment_spec g tiles i rest d ds hadj).2.1 j he]

/-- The iterated single-step loop preserves the number of vertices of
every tile. -/
theorem runStepAlignment_points_length (g : List (List AdjData)) (s : AlignState) :
    ∀ j, ((runStepAlignment g s).tiles.getD j defaultRhomb).points.length
      = (s.tiles.getD j defaultRhomb).points.length := by
  induction s using runStepAlignment.induct g with
  | case1 s h => intro j; rw [runStepAlignment_nil g s h]
  | case2 s h ih =>
    intro j
    rw [runStepAlignment_cons g s h, ih j, stepAlignment_points_length]

/-- Rebuilding a list from getD reads over its range is the identity. -/
theorem range_map_getD {α : Type _} (l : List α) (d : α) :
    (List.range l.length).map (fun i => l.getD i d) = l := by
  apply List.ext_getElem (by simp)
  intro i h1 h2
  simp only [List.getElem_map, List.getElem_range, List.getD_eq_getElem?_getD]
  rw [List.getElem?_eq_getElem h2]
  rfl

/-- The batch entry point preserves the number of tiles. -/
theorem alignRhombuses_length (tiles : List Rhomb) (g : List (List AdjData)) :
    (alignRhombuses tiles g).length = tiles.length := by
  unfold alignRhombuses
  by_cases h0 : tiles.length = 0
  · rw [if_pos h0]
  · rw [if_neg h0, alignLoop_length]
    simp

/-- The batch entry point changes no locked flag, no original snapshot,
and no vertex count. -/
theorem alignRhombuses_preserves (tiles : List Rhomb) (g : List (List AdjData)) :
    ∀ j, ((alignRhombuses tiles g).getD j defaultRhomb).locked
        = (tiles.getD j defaultRhomb).locked ∧
      ((alignRhombuses tiles g).getD j defaultRhomb).originalPoints
        = (tiles.getD j defaultRhomb).originalPoints ∧
      ((alignRhombuses tiles g).getD j defaultRhomb).points.length
        = (tiles.getD j defaultRhomb).points.length := by
  intro j
  unfold alignRhombuses
  by_cases h0 : tiles.length = 0
  · rw [if_pos h0]
    exact ⟨rfl, rfl, rfl⟩
  · rw [if_neg h0]
    have hbase := alignLoop_preserves g
      (tiles.set 0 { tiles.getD 0 defaultRhomb with aligned := true }) [0] j
    have hset : ((tiles.set 0 { tiles.getD 0 defaultRhomb with aligned := true }).getD
          j defaultRhomb).locked = (tiles.getD j defaultRhomb).locked ∧
        ((tiles.set 0 { tiles.getD 0 defaultRhomb with aligned := true }).getD
          j defaultRhomb).originalPoints = (tiles.getD j defaultRhomb).originalPoints ∧
        ((tiles.set 0 { tiles.getD 0 defaultRhomb with aligned := true }).getD
          j defaultRhomb).points.length = (tiles.getD j defaultRhomb).points.length := by
      by_cases hj : j = 0
      · subst hj
        rw [getD_set_self _ _ _ _ (by omega)]
        exact ⟨rfl, rfl, rfl⟩
      · rw [getD_set_ne _ (fun h => hj h.symm)]
        exact ⟨rfl, rfl, rfl⟩
    exact ⟨hbase.1.trans hset.1, hbase.2.1.trans hset.2.1, hbase.2.2.2.trans hset.2.2⟩

/-- What reset does to every in-range tile: vertices rebuilt from the
original snapshot (over the current vertex count), aligned cleared, and
every other field (locked included) untouched. -/
theorem resetRhombuses_getD (tiles : List Rhomb) (j : ℕ) (hj : j < tiles.length) :
    (resetRhombuses tiles).getD j defaultRhomb =
      { tiles.getD j defaultRhomb with
        points := (List.range (tiles.getD j defaultRhomb).points.length).map
          fun i => (tiles.getD j defaultRhomb).originalPoints.getD i (0, 0)
        aligned := false } := by
  unfold resetRhombuses
  rw [List.getD_eq_getElem _ _ (by simpa using hj), List.getElem_map]
  rw [List.getD_eq_getElem _ _ hj]

/-- Claim C7 (amended): after a batch alignment run, or an iterated
single-step run followed by the reset branch of toggleAlignment, every
tile's vertices equal its original snapshot (hence equal the
pre-alignment positions whenever the run started from fresh tiles), the
aligned flag is cleared and the queue is cleared; the locked flag is NOT
cleared but kept unchanged. -/
theorem claim_C7_reset_restores_snapshot (g : List (List AdjData)) (tiles : List Rhomb)
    (hsnaplen : ∀ t ∈ tiles, t.points.length = t.originalPoints.length) :
    (∀ j, j < tiles.length →
      ((resetRhombuses (alignRhombuses tiles g)).getD j defaultRhomb).points
          = (tiles.getD j defaultRhomb).originalPoints ∧
      ((resetRhombuses (alignRhombuses tiles g)).getD j defaultRhomb).aligned = false ∧
      ((resetRhombuses (alignRhombuses tiles g)).getD j defaultRhomb).locked
          = (tiles.getD j defaultRhomb).locked) ∧
    (∀ seeds : List ℕ, ∀ j, j < tiles.length →
      ((toggleAlignmentReset (runStepAlignment g ⟨tiles, seeds⟩)).tiles.getD
            j defaultRhomb).points = (tiles.getD j defaultRhomb).originalPoints ∧
      ((toggleAlignmentReset (runStepAlignment g ⟨tiles, seeds⟩)).tiles.getD
            j defaultRhomb).aligned = false ∧
      ((toggleAlignmentReset (runStepAlignment g ⟨tiles, seeds⟩)).tiles.getD
            j defaultRhomb).locked = (tiles.getD j defaultRhomb).locked ∧
      (toggleAlignmentReset (runStepAlignment g ⟨tiles, seeds⟩)).queue = []) ∧
    ((∀ t ∈ tiles, t.points = t.originalPoints) →
      ∀ j, j < tiles.length →
        ((resetRhombuses (alignRhombuses tiles g)).getD j defaultRhomb).points
            = (tiles.getD j defaultRhomb).points) := by
  have hsnapget : ∀ j, j < tiles.length →
      (tiles.getD j defaultRhomb).points.length
        = (tiles.getD j defaultRhomb).originalPoints.length := by
    intro j hj
    rw [List.getD_eq_getElem tiles defaultRhomb hj]
    exact hsnaplen _ (List.getElem_mem hj)
  have hbatch : ∀ j, j < tiles.length →
      ((resetRhombuses (alignRhombuses tiles g)).getD j defaultRhomb).points
          = (tiles.getD j defaultRhomb).originalPoints ∧
      ((resetRhombuses (alignRhombuses tiles g)).getD j defaultRhomb).aligned = false ∧
      ((resetRhombuses (alignRhombuses tiles g)).getD j defaultRhomb).locked
          = (tiles.getD j defaultRhomb).locked := by
    intro j hj
    have hjA : j < (alignRhombuses tiles g).length := by
      rwa [alignRhombuses_length]
    have hpres := alignRhombuses_preserves tiles g j
    rw [resetRhombuses_getD _ _ hjA]
    refine ⟨?_, rfl, hpres.1⟩
    rw [hpres.2.1, hpres.2.2, hsnapget j hj, range_map_getD]
  refine ⟨hbatch, ?_, ?_⟩
  · intro seeds j hj
    have hjR : j < (runStepAlignment g ⟨tiles, seeds⟩).tiles.length := by
      rw [runStepAlignment_length]
      exact hj
    have hpres := runStepAlignment_preserves g ⟨tiles, seeds⟩ j
    have hplen := runStepAlignment_points_length g ⟨tiles, seeds⟩ j
    unfold toggleAlignmentReset
    refine ⟨?_, ?_, ?_, rfl⟩
    · rw [resetRhombuses_getD _ _ hjR]
      rw [hpres.2.1, hplen, hsnapget j hj, range_map_getD]
    · rw [resetRhombuses_getD _ _ hjR]
    · rw [resetRhombuses_getD _ _ hjR]
      exact hpres.1
  · intro hfresh j hj
    rw [(hbatch j hj).1]
    rw [List.getD_eq_getElem tiles defaultRhomb hj]
    exact (hfresh _ (List.getElem_mem hj)).symm

/-- Claim C8 (amended): in single-step alignment (one stepAlignment call,
or the whole iterated run), a tile whose locked flag is set is never
translated: all its vertex coordinates are unchanged; and when a locked
tile is visited as the first unaligned neighbour of the popped tile it is
still marked aligned, so alignment does not re-enter it.  (The batch run
alignRhombuses performs no locked check and translates locked tiles, see
its counterexample.) -/
theorem claim_C8_locked_frame_exempt (g : List (List AdjData)) :
    (∀ (s : AlignState) (j : ℕ), (s.tiles.getD j defaultRhomb).locked = true →
      ((stepAlignment g s).tiles.getD j defaultRhomb).points
          = (s.tiles.getD j defaultRhomb).points ∧
      ((runStepAlignment g s).tiles.getD j defaultRhomb).points
          = (s.tiles.getD j defaultRhomb).points) ∧
    (∀ (tiles : List Rhomb) (i : ℕ) (rest : List ℕ) (d : AdjData) (ds : List AdjData),
      getUnalignedAdjacentTiles g tiles i = d :: ds →
      (tiles.getD d.neighborIndex defaultRhomb).locked = true →
      ((stepAlignment g ⟨tiles, i :: rest⟩).tiles.getD d.neighborIndex defaultRhomb).aligned
        = true) := by
  constructor
  · intro s j hl
    exact ⟨stepAlignment_locked_points g s j hl,
      runStepAlignment_locked_points g s j hl⟩
  · intro tiles i rest d ds hadj _
    exact (stepAlignment_spec g tiles i rest d ds hadj).2.2.1

/-- Claim C6 (amended): when the popped tile T has unaligned neighbours,
stepAlignment processes only the first one (every other tile is untouched)
and re-enqueues T at the FRONT of the queue once for each of the remaining
neighbours, while the processed neighbour is pushed at the back.  (The
original claim said the copies of T go to the back of the queue; the
source uses unshift, which prepends.) -/
theorem claim_C6_queue_discipline (g : List (List AdjData)) (tiles : List Rhomb) (i : ℕ)
    (rest : List ℕ) (d : AdjData) (ds : List AdjData)
    (hadj : getUnalignedAdjacentTiles g tiles i = d :: ds) :
    (stepAlignment g ⟨tiles, i :: rest⟩).queue
        = List.replicate ds.length i ++ rest ++ [d.neighborIndex] ∧
    (∀ j, j ≠ d.neighborIndex →
      (stepAlignment g ⟨tiles, i :: rest⟩).tiles.getD j defaultRhomb
        = tiles.getD j defaultRhomb) := by
  have hspec := stepAlignment_spec g tiles i rest d ds hadj
  exact ⟨hspec.2.2.2.2.2.2.2, hspec.2.1⟩

/-- Reading an in-range element of a mapped list through getD. -/
theorem getD_map_lt {α β : Type _} (f : α → β) (l : List α) (k : ℕ) (h : k < l.length)
    (d : β) (d2 : α) : (l.map f).getD k d = f (l.getD k d2) := by
  rw [List.getD_eq_getElem _ _ (by simpa using h), List.getElem_map,
    List.getD_eq_getElem _ _ h]

/-- Claim C10: every vertex mutation of the program, the alignment
translation (realignRhombus), the drag handler translation
(mouseDragged), and the per-frame animation interpolation of the draw
loop, adds the same displacement to all vertices, so all pairwise vertex
differences, and with them the side lengths and the rhombus shape, are
invariant. -/
theorem claim_C10_translation_invariance :
    (∀ (r : Rhomb) (offset : ℝ × ℝ) (k l : ℕ), k < r.points.length → l < r.points.length →
      ((realignRhombus r offset).points.getD k (0, 0)).1
          - ((realignRhombus r offset).points.getD l (0, 0)).1
        = (r.points.getD k (0, 0)).1 - (r.points.getD l (0, 0)).1 ∧
      ((realignRhombus r offset).points.getD k (0, 0)).2
          - ((realignRhombus r offset).points.getD l (0, 0)).2
        = (r.points.getD k (0, 0)).2 - (r.points.getD l (0, 0)).2) ∧
    (∀ (r : Rhomb) (deltaX deltaY : ℝ) (k l : ℕ),
      k < r.points.length → l < r.points.length →
      ((mouseDraggedMove r deltaX deltaY).points.getD k (0, 0)).1
          - ((mouseDraggedMove r deltaX deltaY).points.getD l (0, 0)).1
        = (r.points.getD k (0, 0)).1 - (r.points.getD l (0, 0)).1 ∧
      ((mouseDraggedMove r deltaX deltaY).points.getD k (0, 0)).2
          - ((mouseDraggedMove r deltaX deltaY).points.getD l (0, 0)).2
        = (r.points.getD k (0, 0)).2 - (r.points.getD l (0, 0)).2) ∧
    (∀ (startPositions : List (ℝ × ℝ)) (offset : ℝ × ℝ) (progress : ℝ) (k l : ℕ),
      k < startPositions.length → l < startPositions.length →
      ((drawAnimatePoints startPositions offset progress).getD k (0, 0)).1
          - ((drawAnimatePoints startPositions offset progress).getD l (0, 0)).1
        = (startPositions.getD k (0, 0)).1 - (startPositions.getD l (0, 0)).1 ∧
      ((drawAnimatePoints startPositions offset progress).getD k (0, 0)).2
          - ((drawAnimatePoints startPositions offset progress).getD l (0, 0)).2
        = (startPositions.getD k (0, 0)).2 - (startPositions.getD l (0, 0)).2) := by
  refine ⟨?_, ?_, ?_⟩
  · intro r offset k l hk hl
    unfold realignRhombus
    rw [getD_map_lt _ _ _ hk _ (0, 0), getD_map_lt _ _ _ hl _ (0, 0)]
    constructor <;> ring
  · intro r dX dY k l hk hl
    unfold mouseDraggedMove
    rw [getD_map_lt _ _ _ hk _ (0, 0), getD_map_lt _ _ _ hl _ (0, 0)]
    constructor <;> ring
  · intro sp offset progress k l hk hl
    unfold drawAnimatePoints
    rw [getD_map_lt _ _ _ hk _ (0, 0), getD_map_lt _ _ _ hl _ (0, 0)]
    constructor <;> ring

/-! ## Batch versus single-step: the simulation argument -/

/-- Generic filter lemma: marking the key of the first filtered element
(and only that key) removes exactly that element from the filtered list,
provided the keys are distinct. -/
theorem filter_eq_tail_of_mark {α : Type _} (key : α → ℕ) (p0 p1 : α → Bool) :
    ∀ (l : List α) (d : α) (ds : List α),
      (l.map key).Nodup →
      (∀ e, key e ≠ key d → p1 e = p0 e) →
      (∀ e, key e = key d → p1 e = false) →
      (∀ e, key e = key d → p0 e = true) →
      l.filter p0 = d :: ds → l.filter p1 = ds := by
  intro l
  induction l with
  | nil =>
    intro d ds _ _ _ _ hf
    simp at hf
  | cons e l' ih =>
    intro d ds hnd h1 h0 hkey hf
    simp only [List.map_cons, List.nodup_cons] at hnd
    obtain ⟨hke, hnd'⟩ := hnd
    rw [List.filter_cons] at hf ⊢
    by_cases hpe : p0 e = true
    · rw [if_pos hpe] at hf
      injection hf with hf1 hf2
      subst hf1
      rw [if_neg (by rw [h0 e rfl]; simp)]
      rw [List.filter_congr ?_]
      · exact hf2
      · intro x hx
        apply h1
        intro hkx
        exact hke (hkx ▸ List.mem_map.mpr ⟨x, hx, rfl⟩)
    · rw [if_neg hpe] at hf
      have hked : key e ≠ key d := fun hk => hpe (hkey e hk)
      rw [if_neg (by rw [h1 e hked]; exact hpe)]
      exact ih d ds hnd' h1 h0 hkey hf

/-- After marking the first unaligned neighbour aligned (and changing no
other aligned flag), recomputing the unaligned adjacency of the same tile
yields exactly the tail of the previous snapshot, when the adjacency list
has no duplicate neighbour indices. -/
theorem getUnaligned_recompute (g : List (List AdjData)) (tiles T1 : List Rhomb) (i : ℕ)
    (d : AdjData) (ds : List AdjData)
    (hnd : ((g.getD i []).map (·.neighborIndex)).Nodup)
    (hadj : getUnalignedAdjacentTiles g tiles i = d :: ds)
    (ha : ∀ j, j ≠ d.neighborIndex →
      (T1.getD j defaultRhomb).aligned = (tiles.getD j defaultRhomb).aligned)
    (hb : (T1.getD d.neighborIndex defaultRhomb).aligned = true) :
    getUnalignedAdjacentTiles g T1 i = ds := by
  have hd0 : (tiles.getD d.neighborIndex defaultRhomb).aligned = false :=
    mem_getUnalignedAdjacentTiles (hadj ▸ List.mem_cons_self d ds)
  unfold getUnalignedAdjacentTiles at hadj ⊢
  refine filter_eq_tail_of_mark (fun e => e.neighborIndex) _ _ (g.getD i []) d ds hnd
    ?_ ?_ ?_ hadj
  · intro e he
    rw [ha e.neighborIndex he]
  · intro e he
    simp only at he
    rw [he, hb]
    rfl
  · intro e he
    simp only at he
    rw [he, hd0]
    rfl

/-- Phase lemma: starting from m copies of tile i at the front of the
queue (with m at least 1 when i still has unaligned neighbours, and no
locked tiles), the single-step run reaches exactly the state the batch
expansion of i produces, with the processed neighbours enqueued behind
the rest of the queue. -/
theorem runStep_phase (g : List (List AdjData))
    (hnd : ∀ i, ((g.getD i []).map (·.neighborIndex)).Nodup) :
    ∀ (u m : ℕ) (tiles : List Rhomb) (i : ℕ) (rest : List ℕ),
      (∀ j, (tiles.getD j defaultRhomb).locked = false) →
      (getUnalignedAdjacentTiles g tiles i).length = u →
      (1 ≤ u → 1 ≤ m) →
      runStepAlignment g ⟨tiles, List.replicate m i ++ rest⟩
        = runStepAlignment g
            ⟨(alignNeighbors i (getUnalignedAdjacentTiles g tiles i) tiles).1,
              rest ++ (alignNeighbors i (getUnalignedAdjacentTiles g tiles i) tiles).2⟩ := by
  intro u
  induction u with
  | zero =>
    intro m tiles i rest hnl hlen _
    have hadj : getUnalignedAdjacentTiles g tiles i = [] := List.length_eq_zero.mp hlen
    rw [hadj]
    simp only [alignNeighbors, List.append_nil]
    induction m with
    | zero => rw [List.replicate_zero, List.nil_append]
    | succ mm ihm =>
      rw [List.replicate_succ, List.cons_append]
      rw [runStepAlignment_cons g _ (by simp)]
      rw [stepAlignment_cons_nil g tiles i _ hadj]
      exact ihm (by omega)
  | succ u ihu =>
    intro m tiles i rest hnl hlen hm
    rcases hadj : getUnalignedAdjacentTiles g tiles i with _ | ⟨d, ds⟩
    · rw [hadj] at hlen
      simp at hlen
    have hds_len : ds.length = u := by
      rw [hadj] at hlen
      simpa using hlen
    rcases m with _ | mm
    · exact absurd (hm (by omega)) (by omega)
    have hd0 : (tiles.getD d.neighborIndex defaultRhomb).aligned = false :=
      mem_getUnalignedAdjacentTiles (hadj ▸ List.mem_cons_self d ds)
    have hlt : d.neighborIndex < tiles.length := lt_length_of_unaligned hd0
    have hlock : (tiles.getD d.neighborIndex defaultRhomb).locked = false := hnl _
    rw [List.replicate_succ, List.cons_append]
    rw [runStepAlignment_cons g _ (by simp)]
    rw [stepAlignment_cons_cons g tiles i _ d ds hadj]
    rw [hlock]
    simp only [Bool.false_eq_true, if_false]
    have hlt1 : d.neighborIndex < (tiles.set d.neighborIndex
        (realignRhombus (tiles.getD d.neighborIndex defaultRhomb)
          (calculateAlignmentOffset (tiles.getD i defaultRhomb)
            (tiles.getD d.neighborIndex defaultRhomb) d.sharedLine d.direction))).length := by
      simpa using hlt
    rw [getD_set_self _ _ _ _ hlt, List.set_set]
    set T1 := tiles.set d.neighborIndex
      { realignRhombus (tiles.getD d.neighborIndex defaultRhomb)
          (calculateAlignmentOffset (tiles.getD i defaultRhomb)
            (tiles.getD d.neighborIndex defaultRhomb) d.sharedLine d.direction) with
        aligned := true } with hT1
    have hnl1 : ∀ j, (T1.getD j defaultRhomb).locked = false := by
      intro j
      rw [hT1]
      by_cases hj : j = d.neighborIndex
      · subst hj
        rw [getD_set_self _ _ _ _ hlt]
        exact hnl _
      · rw [getD_set_ne _ (fun h => hj h.symm)]
        exact hnl _
    have hrec : getUnalignedAdjacentTiles g T1 i = ds := by
      refine getUnaligned_recompute g tiles T1 i d ds (hnd i) hadj ?_ ?_
      · intro j hj
        rw [hT1, getD_set_ne _ (fun h => hj h.symm)]
      · rw [hT1, getD_set_self _ _ _ _ hlt]
    have hq : List.replicate ds.length i ++ (List.replicate mm i ++ rest) ++ [d.neighborIndex]
        = List.replicate (ds.length + mm) i ++ (rest ++ [d.neighborIndex]) := by
      rw [List.replicate_add]
      simp only [List.append_assoc]
    rw [hq]
    have hstep := ihu (ds.length + mm) T1 i (rest ++ [d.neighborIndex]) hnl1
      (by rw [hrec, hds_len]) (by omega)
    rw [hrec] at hstep
    rw [hstep]
    simp only [alignNeighbors]
    rw [← hT1]
    have hq2 : (rest ++ [d.neighborIndex]) ++ (alignNeighbors i ds T1).2
        = rest ++ (d.neighborIndex :: (alignNeighbors i ds T1).2) := by
      simp
    rw [hq2]

/-- The single-step loop run to completion computes exactly the batch
loop result, on every state without locked tiles. -/
theorem runStep_eq_alignLoop (g : List (List AdjData))
    (hnd : ∀ i, ((g.getD i []).map (·.neighborIndex)).Nodup) :
    ∀ (tiles : List Rhomb) (queue : List ℕ),
      (∀ j, (tiles.getD j defaultRhomb).locked = false) →
      (runStepAlignment g ⟨tiles, queue⟩).tiles = alignLoop g tiles queue := by
  intro tiles queue
  induction tiles, queue using alignLoop.induct g with
  | case1 t =>
    intro _
    rw [alignLoop_nil, runStepAlignment_nil g _ rfl]
  | case2 t i rest ih =>
    intro hnl
    have hphase := runStep_phase g hnd (getUnalignedAdjacentTiles g t i).length 1 t i rest
      hnl rfl (fun _ => le_refl 1)
    rw [List.replicate_one, List.cons_append, List.nil_append] at hphase
    rw [hphase]
    rw [alignLoop_cons]
    apply ih
    intro j
    rw [(alignNeighbors_preserves i (getUnalignedAdjacentTiles g t i) t j).1]
    exact hnl j

/-- Claim C2 (amended): provided no tile is locked (as is the case in
every code path that calls the batch aligner), running single-step
alignment to completion from the progressive start state produces exactly
the same final tiles, hence the same vertex positions for every tile, as
the batch run alignRhombuses, for the same adjacency graph (assumed free
of duplicate neighbour entries, as built) and the same seed.  When a tile
is locked the two modes genuinely differ, because the batch loop
translates locked tiles; see the counterexample. -/
theorem claim_C2_batch_single_step_equivalence (g : List (List AdjData)) (tiles : List Rhomb)
    (hnd : ∀ i, ((g.getD i []).map (·.neighborIndex)).Nodup)
    (hnl : ∀ t ∈ tiles, t.locked = false)
    (hne : tiles ≠ []) :
    (runStepAlignment g (startProgressiveAlignment tiles)).tiles = alignRhombuses tiles g := by
  have hlen0 : 0 < tiles.length := List.length_pos.mpr hne
  have hcount : tiles.countP (fun r => r.locked) = 0 := by
    rw [List.countP_eq_zero]
    intro a ha
    simp [hnl a ha]
  have hsp : startProgressiveAlignment tiles =
      ⟨tiles.set 0 { tiles.getD 0 defaultRhomb with aligned := true }, [0]⟩ := by
    unfold startProgressiveAlignment
    rw [if_neg (by omega)]
  have hbatch : alignRhombuses tiles g =
      alignLoop g (tiles.set 0 { tiles.getD 0 defaultRhomb with aligned := true }) [0] := by
    unfold alignRhombuses
    rw [if_neg (by omega)]
  have hnlD : ∀ j, (tiles.getD j defaultRhomb).locked = false := by
    intro j
    by_cases hj : j < tiles.length
    · rw [List.getD_eq_getElem tiles defaultRhomb hj]
      exact hnl _ (List.getElem_mem hj)
    · rw [List.getD_eq_default _ _ (Nat.le_of_not_lt hj)]
      rfl
  rw [hsp, hbatch]
  apply runStep_eq_alignLoop g hnd
  intro j
  by_cases hj : j = 0
  · subst hj
    rw [getD_set_self _ _ _ _ hlen0]
    exact hnlD 0
  · rw [getD_set_ne _ (fun h => hj h.symm)]
    exact hnlD j

/-! ## Concrete evaluation of the alignment runs -/

/-- Vertical segments meet the horizontal unit line (0,0)-(1,0) at 90 degrees. -/
theorem angle_vert_line01 (x ya yb : ℝ) (h : ya ≠ yb) :
    getAngleBetweenLines x ya x yb 0 0 1 0 = 90 := by
  simp only [getAngleBetweenLines]
  rw [show x - x = (0 : ℝ) by ring]
  rw [show (1 : ℝ) - 0 = 1 by norm_num, show (0 : ℝ) - 0 = 0 by norm_num]
  rw [show (0 : ℝ) * 1 + (yb - ya) * 0 = 0 by ring]
  rw [show (0 : ℝ) * 0 + (yb - ya) * (yb - ya) = (yb - ya) ^ 2 by ring]
  rw [show (1 : ℝ) * 1 + 0 * 0 = 1 by norm_num, Real.sqrt_one]
  have hs : Real.sqrt ((yb - ya) ^ 2) ≠ 0 := by
    rw [Real.sqrt_ne_zero (sq_nonneg _)]
    exact pow_ne_zero 2 (sub_ne_zero_of_ne (Ne.symm h))
  rw [if_neg (by push_neg; exact ⟨hs, one_ne_zero⟩)]
  rw [zero_div]
  norm_num [Real.arccos_zero, RIGHT_ANGLE]
  rw [show Real.pi / 2 * 180 / Real.pi = 90 by
    rw [div_eq_iff Real.pi_ne_zero]; ring]
  norm_num

/-- Horizontal segments meet the horizontal unit line (0,0)-(1,0) at 0 degrees. -/
theorem angle_horiz_line01 (y xa xb : ℝ) (h : xa ≠ xb) :
    getAngleBetweenLines xa y xb y 0 0 1 0 = 0 := by
  simp only [getAngleBetweenLines]
  rw [show y - y = (0 : ℝ) by ring]
  rw [show (1 : ℝ) - 0 = 1 by norm_num, show (0 : ℝ) - 0 = 0 by norm_num]
  rw [show (xb - xa) * 1 + (0 : ℝ) * 0 = xb - xa by ring]
  rw [show (xb - xa) * (xb - xa) + (0 : ℝ) * 0 = (xb - xa) ^ 2 by ring]
  rw [show (1 : ℝ) * 1 + 0 * 0 = 1 by norm_num, Real.sqrt_one]
  rw [Real.sqrt_sq_eq_abs]
  have hne : xb - xa ≠ 0 := sub_ne_zero_of_ne (Ne.symm h)
  have habs : |xb - xa| ≠ 0 := abs_ne_zero.mpr hne
  rw [if_neg (by push_neg; exact ⟨habs, one_ne_zero⟩)]
  rw [mul_one]
  rcases lt_or_gt_of_ne hne with hlt | hgt
  · rw [abs_of_neg hlt]
    rw [show (xb - xa) / -(xb - xa) = -1 by
      rw [div_eq_iff (neg_ne_zero.mpr hne)]; ring]
    rw [show min (1 : ℝ) (-1) = -1 by norm_num, show max (-1 : ℝ) (-1) = -1 by norm_num]
    rw [Real.arccos_neg_one]
    rw [show Real.pi * 180 / Real.pi = 180 by
      rw [div_eq_iff Real.pi_ne_zero]; ring]
    norm_num [RIGHT_ANGLE]
  · rw [abs_of_pos hgt]
    rw [div_self hne]
    rw [show min (1 : ℝ) 1 = 1 by norm_num, show max (-1 : ℝ) 1 = 1 by norm_num]
    rw [Real.arccos_one]
    norm_num [RIGHT_ANGLE]

/-- Forward reference edge of the left square: its right vertical edge. -/
theorem cexEdge0F (r : Rhomb) (hp : r.points = cexPoints0)
    (hx : r.intersection.x = 1) (hy : r.intersection.y = 1) :
    findEdgeOnLine r cexLine Direction.forward =
      some ⟨(2, 2), (2, 0), 1⟩ := by
  simp only [findEdgeOnLine, hp, hx, hy]
  rw [show List.range 4 = [0, 1, 2, 3] from rfl]
  simp only [List.filterMap_cons, List.filterMap_nil]
  norm_num [cexPoints0, cexLine, angle_vert_line01, angle_horiz_line01,
    RIGHT_ANGLE, ANGLE_TOLERANCE, Real.sqrt_one]

/-- Backward reference edge of the right square: its left vertical edge. -/
theorem cexEdge1B (r : Rhomb) (hp : r.points = cexPoints1)
    (hx : r.intersection.x = 7) (hy : r.intersection.y = 1) :
    findEdgeOnLine r cexLine Direction.backward =
      some ⟨(6, 0), (6, 2), -1⟩ := by
  simp only [findEdgeOnLine, hp, hx, hy]
  rw [show List.range 4 = [0, 1, 2, 3] from rfl]
  simp only [List.filterMap_cons, List.filterMap_nil]
  norm_num [cexPoints1, cexLine, angle_vert_line01, angle_horiz_line01,
    RIGHT_ANGLE, ANGLE_TOLERANCE, Real.sqrt_one]

/-- Offset that aligns the right square against the left one. -/
theorem cexOffsetF (s a : Rhomb)
    (hsp : s.points = cexPoints0) (hsx : s.intersection.x = 1) (hsy : s.intersection.y = 1)
    (hap : a.points = cexPoints1) (hax : a.intersection.x = 7) (hay : a.intersection.y = 1) :
    calculateAlignmentOffset s a cexLine Direction.forward = (-4, 0) := by
  unfold calculateAlignmentOffset
  rw [cexEdge0F s hsp hsx hsy]
  rw [show Direction.forward.opposite = Direction.backward from rfl]
  rw [cexEdge1B a hap hax hay]
  norm_num

/-- Offset that aligns the left square against the right one. -/
theorem cexOffsetB (s a : Rhomb)
    (hsp : s.points = cexPoints1) (hsx : s.intersection.x = 7) (hsy : s.intersection.y = 1)
    (hap : a.points = cexPoints0) (hax : a.intersection.x = 1) (hay : a.intersection.y = 1) :
    calculateAlignmentOffset s a cexLine Direction.backward = (4, 0) := by
  unfold calculateAlignmentOffset
  rw [cexEdge1B s hsp hsx hsy]
  rw [show Direction.backward.opposite = Direction.forward from rfl]
  rw [cexEdge0F a hap hax hay]
  norm_num

/-- Translating the locked square by the batch offset. -/
theorem cexRealign1 :
    ({ realignRhombus cexTile1 (-4, 0) with aligned := true } : Rhomb) = cexTile1Moved := by
  unfold realignRhombus
  simp only [cexTile1, cexTile1Moved, cexPoints1, List.map_cons, List.map_nil]
  norm_num

/-- Translating the unlocked square by the single-step offset. -/
theorem cexRealign0 :
    realignRhombus cexTile0 (4, 0) =
      ⟨[(4, 0), (4, 2), (6, 2), (6, 0)], ⟨1, 1, cexLine, cexLine⟩, false, false, cexPoints0⟩ := by
  unfold realignRhombus
  simp only [cexTile0, cexPoints0, List.map_cons, List.map_nil]
  norm_num

/-- The batch run on the two squares: it translates the locked tile. -/
theorem cexBatch : alignRhombuses cexTiles cexG = [cexTile0A, cexTile1Moved] := by
  unfold alignRhombuses
  rw [if_neg (by norm_num [cexTiles])]
  rw [show cexTiles.set 0 { cexTiles.getD 0 defaultRhomb with aligned := true }
      = [cexTile0A, cexTile1] from rfl]
  rw [alignLoop_cons]
  rw [show getUnalignedAdjacentTiles cexG [cexTile0A, cexTile1] 0
      = [⟨1, cexLine, Direction.forward⟩] from rfl]
  have h3 : alignNeighbors 0 [⟨1, cexLine, Direction.forward⟩] [cexTile0A, cexTile1]
      = ([cexTile0A, cexTile1Moved], [1]) := by
    simp only [alignNeighbors]
    rw [show ([cexTile0A, cexTile1] : List Rhomb).getD 0 defaultRhomb = cexTile0A from rfl,
        show ([cexTile0A, cexTile1] : List Rhomb).getD 1 defaultRhomb = cexTile1 from rfl]
    rw [cexOffsetF cexTile0A cexTile1 rfl rfl rfl rfl rfl rfl]
    rw [cexRealign1]
    rfl
  rw [h3]
  rw [show ([] : List ℕ) ++ [1] = [1] from rfl]
  rw [alignLoop_cons]
  rw [show getUnalignedAdjacentTiles cexG [cexTile0A, cexTile1Moved] 1 = [] from rfl]
  rw [show alignNeighbors 1 [] [cexTile0A, cexTile1Moved]
      = ([cexTile0A, cexTile1Moved], []) from rfl]
  rw [show ([] : List ℕ) ++ ([] : List ℕ) = [] from rfl]
  exact alignLoop_nil _ _

/-- The progressive run seeds from the locked tile. -/
theorem cexStart : startProgressiveAlignment cexTiles = ⟨cexTiles, [1]⟩ := rfl

/-- First frame: the locked tile translates its unlocked neighbour. -/
theorem cexStep1 : stepAlignment cexG ⟨cexTiles, [1]⟩ = ⟨[cexTile0Moved, cexTile1], [0]⟩ := by
  rw [stepAlignment_cons_cons cexG cexTiles 1 [] ⟨0, cexLine, Direction.backward⟩ [] rfl]
  rw [show cexTiles.getD (⟨0, cexLine, Direction.backward⟩ : AdjData).neighborIndex defaultRhomb
      = cexTile0 from rfl]
  rw [show cexTiles.getD 1 defaultRhomb = cexTile1 from rfl]
  rw [show cexTile0.locked = false from rfl]
  simp only [Bool.false_eq_true, if_false]
  rw [cexOffsetB cexTile1 cexTile0 rfl rfl rfl rfl rfl rfl]
  rw [cexRealign0]
  rfl

/-- Second frame: the locked tile is visited, marked aligned, and not moved. -/
theorem cexStep2 : stepAlignment cexG ⟨[cexTile0Moved, cexTile1], [0]⟩
    = ⟨[cexTile0Moved, cexTile1A], [1]⟩ := rfl

/-- Third frame: the locked tile has no unaligned neighbours left. -/
theorem cexStep3 : stepAlignment cexG ⟨[cexTile0Moved, cexTile1A], [1]⟩
    = ⟨[cexTile0Moved, cexTile1A], []⟩ := rfl

/-- The full single-step run on the two squares. -/
theorem cexRun : runStepAlignment cexG ⟨cexTiles, [1]⟩ = ⟨[cexTile0Moved, cexTile1A], []⟩ := by
  rw [runStepAlignment_cons _ _ (by simp)]
  rw [cexStep1]
  rw [runStepAlignment_cons _ _ (by simp)]
  rw [cexStep2]
  rw [runStepAlignment_cons _ _ (by simp)]
  rw [cexStep3]
  exact runStepAlignment_nil _ _ rfl

/-- The batch run on the single locked tile. -/
theorem cexLockBatch : alignRhombuses cexLockTiles [] =
    [⟨[(0, 0)], ⟨0, 0, cexLine, cexLine⟩, true, true, [(0, 0)]⟩] := by
  unfold alignRhombuses
  rw [if_neg (by norm_num [cexLockTiles])]
  rw [show cexLockTiles.set 0 { cexLockTiles.getD 0 defaultRhomb with aligned := true }
      = [(⟨[(0, 0)], ⟨0, 0, cexLine, cexLine⟩, true, true, [(0, 0)]⟩ : Rhomb)] from rfl]
  rw [alignLoop_cons]
  rw [show getUnalignedAdjacentTiles []
      [(⟨[(0, 0)], ⟨0, 0, cexLine, cexLine⟩, true, true, [(0, 0)]⟩ : Rhomb)] 0 = [] from rfl]
  rw [show alignNeighbors 0 []
      [(⟨[(0, 0)], ⟨0, 0, cexLine, cexLine⟩, true, true, [(0, 0)]⟩ : Rhomb)]
      = ([(⟨[(0, 0)], ⟨0, 0, cexLine, cexLine⟩, true, true, [(0, 0)]⟩ : Rhomb)], []) from rfl]
  rw [show ([] : List ℕ) ++ ([] : List ℕ) = [] from rfl]
  exact alignLoop_nil _ _

/-- The source's reset does not clear the locked flag: after aligning and
resetting the one-tile configuration whose tile is locked, the tile is
still locked, refuting the sentence that reset clears it. -/
theorem claim_C7_reset_restores_snapshot_counterexample :
    ((resetRhombuses (alignRhombuses cexLockTiles [])).getD 0 defaultRhomb).locked ≠ false := by
  rw [cexLockBatch]
  simp [resetRhombuses]

/-- The batch loop translates the locked right square, refuting the sentence
that a locked tile is never translated during every alignment run. -/
theorem claim_C8_locked_frame_exempt_counterexample :
    (cexTiles.getD 1 defaultRhomb).locked = true ∧
    ((alignRhombuses cexTiles cexG).getD 1 defaultRhomb).points
      ≠ (cexTiles.getD 1 defaultRhomb).points := by
  refine ⟨rfl, ?_⟩
  rw [cexBatch]
  rw [show ([cexTile0A, cexTile1Moved] : List Rhomb).getD 1 defaultRhomb
      = cexTile1Moved from rfl]
  rw [show cexTiles.getD 1 defaultRhomb = cexTile1 from rfl]
  intro hcontra
  rw [show cexTile1Moved.points = [((2 : ℝ), (0 : ℝ)), (2, 2), (4, 2), (4, 0)] from rfl,
      show cexTile1.points = [((6 : ℝ), (0 : ℝ)), (6, 2), (8, 2), (8, 0)] from rfl] at hcontra
  simp only [List.cons.injEq, Prod.mk.injEq] at hcontra
  norm_num at hcontra

/-- The single-step run and the batch run disagree on the two-square
configuration with a locked tile: the batch moves the locked square, the
single-step run moves the unlocked one instead. -/
theorem claim_C2_batch_single_step_equivalence_counterexample :
    (runStepAlignment cexG (startProgressiveAlignment cexTiles)).tiles
      ≠ alignRhombuses cexTiles cexG := by
  rw [cexStart, cexRun, cexBatch]
  intro hcontra
  simp only [List.cons.injEq] at hcontra
  have h1 : cexTile0Moved = cexTile0A := hcontra.1
  have h2 : cexTile0Moved.points = cexTile0A.points := by rw [h1]
  rw [show cexTile0Moved.points = [((4 : ℝ), (0 : ℝ)), (4, 2), (6, 2), (6, 0)] from rfl,
      show cexTile0A.points = [((0 : ℝ), (0 : ℝ)), (0, 2), (2, 2), (2, 0)] from rfl] at h2
  simp only [List.cons.injEq, Prod.mk.injEq] at h2
  norm_num at h2

/-- stepAlignment re-enqueues the popped tile at the FRONT of the queue, not
at the back: with queue [0, 5] and two unaligned neighbours of tile 0, the
next queue is [0, 5, 1] and not [5, 0, 1]. -/
theorem claim_C6_queue_discipline_counterexample :
    (stepAlignment cexQG ⟨cexQTiles, [0, 5]⟩).queue = [0, 5, 1] ∧
    (stepAlignment cexQG ⟨cexQTiles, [0, 5]⟩).queue ≠ [5, 0, 1] := by
  refine ⟨rfl, ?_⟩
  rw [show (stepAlignment cexQG ⟨cexQTiles, [0, 5]⟩).queue = [0, 5, 1] from rfl]
  decide

/-- The queue discipline, instantiated on the three-tile configuration. -/
theorem claim_C6_queue_discipline_witness :
    (stepAlignment cexQG ⟨cexQTiles, [0, 5]⟩).queue
        = List.replicate ([(⟨2, cexLine, Direction.backward⟩ : AdjData)]).length 0
          ++ [5] ++ [(⟨1, cexLine, Direction.forward⟩ : AdjData).neighborIndex] ∧
    (∀ j, j ≠ (⟨1, cexLine, Direction.forward⟩ : AdjData).neighborIndex →
      (stepAlignment cexQG ⟨cexQTiles, [0, 5]⟩).tiles.getD j defaultRhomb
        = cexQTiles.getD j defaultRhomb) :=
  claim_C6_queue_discipline cexQG cexQTiles 0 [5] ⟨1, cexLine, Direction.forward⟩
    [⟨2, cexLine, Direction.backward⟩] rfl

/-- Batch/single-step agreement, instantiated on the unlocked two-tile
configuration. -/
theorem claim_C2_batch_single_step_equivalence_witness :
    (runStepAlignment exGraphList (startProgressiveAlignment exTiles)).tiles
      = alignRhombuses exTiles exGraphList :=
  claim_C2_batch_single_step_equivalence exGraphList exTiles
    (by intro i
        rcases i with _ | _ | i <;> simp [exGraphList])
    (by intro t ht
        fin_cases ht <;> rfl)
    (by simp [exTiles])

/-- Edge perpendicularity, instantiated on families 0 and 1. -/
theorem claim_C5_edge_perpendicularity_witness :
    rhombPerpendicularityCheck ⟨0, 0, gridLineFor 0 0, gridLineFor 1 0⟩ :=
  claim_C5_edge_perpendicularity 0 1 0 0 0 0 (by norm_num) (by norm_num)

/-- Rhombus side lengths, instantiated on an intersection of families 0 and 1. -/
theorem claim_C4_rhombus_property_witness :
    (findRhomb ⟨0, 0, gridLineFor 0 0, gridLineFor 1 0⟩).points.length = 4 ∧
    ptDist ((findRhomb ⟨0, 0, gridLineFor 0 0, gridLineFor 1 0⟩).points.getD 0 (0, 0))
      ((findRhomb ⟨0, 0, gridLineFor 0 0, gridLineFor 1 0⟩).points.getD 1 (0, 0)) = SCALE ∧
    ptDist ((findRhomb ⟨0, 0, gridLineFor 0 0, gridLineFor 1 0⟩).points.getD 1 (0, 0))
      ((findRhomb ⟨0, 0, gridLineFor 0 0, gridLineFor 1 0⟩).points.getD 2 (0, 0)) = SCALE ∧
    ptDist ((findRhomb ⟨0, 0, gridLineFor 0 0, gridLineFor 1 0⟩).points.getD 2 (0, 0))
      ((findRhomb ⟨0, 0, gridLineFor 0 0, gridLineFor 1 0⟩).points.getD 3 (0, 0)) = SCALE ∧
    ptDist ((findRhomb ⟨0, 0, gridLineFor 0 0, gridLineFor 1 0⟩).points.getD 3 (0, 0))
      ((findRhomb ⟨0, 0, gridLineFor 0 0, gridLineFor 1 0⟩).points.getD 0 (0, 0)) = SCALE :=
  claim_C4_rhombus_property ⟨0, 0, gridLineFor 0 0, gridLineFor 1 0⟩
    (Or.inl (by norm_num [gridLineFor]))

/-- Reset behaviour, instantiated on the locked one-tile configuration. -/
theorem claim_C7_reset_restores_snapshot_witness :
    (∀ j, j < cexLockTiles.length →
      ((resetRhombuses (alignRhombuses cexLockTiles [])).getD j defaultRhomb).points
          = (cexLockTiles.getD j defaultRhomb).originalPoints ∧
      ((resetRhombuses (alignRhombuses cexLockTiles [])).getD j defaultRhomb).aligned
          = false ∧
      ((resetRhombuses (alignRhombuses cexLockTiles [])).getD j defaultRhomb).locked
          = (cexLockTiles.getD j defaultRhomb).locked) ∧
    (∀ seeds : List ℕ, ∀ j, j < cexLockTiles.length →
      ((toggleAlignmentReset (runStepAlignment [] ⟨cexLockTiles, seeds⟩)).tiles.getD
            j defaultRhomb).points = (cexLockTiles.getD j defaultRhomb).originalPoints ∧
      ((toggleAlignmentReset (runStepAlignment [] ⟨cexLockTiles, seeds⟩)).tiles.getD
            j defaultRhomb).aligned = false ∧
      ((toggleAlignmentReset (runStepAlignment [] ⟨cexLockTiles, seeds⟩)).tiles.getD
            j defaultRhomb).locked = (cexLockTiles.getD j defaultRhomb).locked ∧
      (toggleAlignmentReset (runStepAlignment [] ⟨cexLockTiles, seeds⟩)).queue = []) ∧
    ((∀ t ∈ cexLockTiles, t.points = t.originalPoints) →
      ∀ j, j < cexLockTiles.length →
        ((resetRhombuses (alignRhombuses cexLockTiles [])).getD j defaultRhomb).points
            = (cexLockTiles.getD j defaultRhomb).points) :=
  claim_C7_reset_restores_snapshot [] cexLockTiles
    (by intro t ht
        fin_cases ht
        rfl)

/-- Alignment coverage, instantiated on the two-tile configuration. -/
theorem claim_C1_alignment_coverage_witness :
    ((exTiles ≠ [] ∧ ∀ t ∈ exTiles, t.aligned = false) →
      (∀ j, j < exTiles.length →
        (((alignRhombuses exTiles exGraphList).getD j defaultRhomb).aligned = true ↔
          Reach exGraphList [0] j)) ∧
      (∀ j, j < exTiles.length → ¬Reach exGraphList [0] j →
        (alignRhombuses exTiles exGraphList).getD j defaultRhomb
          = exTiles.getD j defaultRhomb)) ∧
    (∀ seeds : List ℕ, (∀ k ∈ seeds, k < exTiles.length) →
      (∀ j, j < exTiles.length →
        ((exTiles.getD j defaultRhomb).aligned = true ↔ j ∈ seeds)) →
      (runStepAlignment exGraphList ⟨exTiles, seeds⟩).queue = [] ∧
      (∀ j, j < exTiles.length →
        (((runStepAlignment exGraphList ⟨exTiles, seeds⟩).tiles.getD j defaultRhomb).aligned
            = true ↔ Reach exGraphList seeds j)) ∧
      (∀ j, j < exTiles.length → ¬Reach exGraphList seeds j →
        (runStepAlignment exGraphList ⟨exTiles, seeds⟩).tiles.getD j defaultRhomb
          = exTiles.getD j defaultRhomb)) :=
  claim_C1_alignment_coverage exGraphList exTiles
    (by intro i d hd
        rcases i with _ | _ | i
        · simp only [exGraphList, List.getD_cons_zero] at hd
          simp at hd
          rw [hd]
          norm_num [exTiles]
        · simp only [exGraphList, List.getD_cons_succ, List.getD_cons_zero] at hd
          simp at hd
          rw [hd]
          norm_num [exTiles]
        · simp [exGraphList] at hd)

end Penrose
